import Mathlib

/-!
Verification of the structural-sharing immutable producer with patch recording
that this repository demonstrates.  The repository itself contains only a
tutorial README and two demo scripts that call into the engine (`produce`,
`produceWithPatches`, `applyPatches`, the `nothing` sentinel, the patch
listener); the engine's own code is not part of the repository, so the
definitions below are modelled from the specification's description of the
data model (§3), the Draft Tracker (§4.1), the Patch Recorder (§4.2), the
Producer (§4.3) and the Patch Applier (§4.4).

Two views of the engine are developed:
* a content-level model on pure trees (`PVal`), which settles the claims about
  values, patches, round-trips and producer return conventions;
* a heap-level model (`Heap`), where container nodes live in an append-only
  store and are addressed by reference, which settles the claims about
  reference identity, absence of base mutation, and structural sharing.
-/

/-- Scalar leaves of a value tree: numbers, strings, booleans, null and the
designated absent value (undefined). -/
inductive Scalar where
  | num : Int → Scalar
  | str : String → Scalar
  | bool : Bool → Scalar
  | null : Scalar
  | undef : Scalar
deriving DecidableEq, Repr

/-- A single step of a patch path: a record field name or a sequence index. -/
inductive Key where
  | fld : String → Key
  | idx : Nat → Key
deriving DecidableEq, Repr

/-- Modelled from the spec: an Immutable Value (§3), a tree of nested ordered
records and ordered sequences over scalars.  This is the pure content view. -/
inductive PVal where
  | prim : Scalar → PVal
  | obj : List (String × PVal) → PVal
  | arr : List PVal → PVal
deriving Repr

/-- Patch operations (§3): replace, add, remove. -/
inductive POp where
  | replace : POp
  | add : POp
  | remove : POp
deriving DecidableEq, Repr

/-- Modelled from the spec: a Patch (§3, §6), an edit operation with an op, a
path of keys/indices from the root, and an optional value (absent for
remove). -/
structure Patch where
  op : POp
  path : List Key
  value : Option PVal
deriving Repr

/-- The Patch Applier's error taxonomy (§4.4, §7): a patch whose path does not
resolve against the current value fails with a PathNotFound error. -/
inductive AErr where
  | pathNotFound : AErr
deriving DecidableEq, Repr

/-- Modelled from the spec: a single intercepted draft write (§4.1) — set a
key/index, delete a key/index, or append to a sequence-like container.  Each
carries the path of the container it acts on. -/
inductive Mutation where
  | mset : List Key → Key → PVal → Mutation
  | mdel : List Key → Key → Mutation
  | mpush : List Key → PVal → Mutation
deriving Repr

/-- Modelled from the spec: the possible returns of an edit function (§4.3):
return nothing/undefined, return the draft itself, return a replacement value,
or return the designated erase sentinel (`nothing`). -/
inductive RecipeRet where
  | void : RecipeRet
  | draftItself : RecipeRet
  | replacement : PVal → RecipeRet
  | nothing : RecipeRet
deriving Repr

/-- Modelled from the spec: an edit function, abstracted as the ordered list
of draft writes it performs during the session followed by its return
behaviour (§4.1, §4.3). -/
structure EditFn where
  muts : List Mutation
  ret : RecipeRet
deriving Repr

/-! ### Association-list and sequence helpers shared by both models -/

/-- Look up the first binding of a field name in an ordered record. -/
def objGet {α : Type} : List (String × α) → String → Option α
  | [], _ => none
  | (k, v) :: rest, q => if k = q then some v else objGet rest q

/-- Replace the value of the first binding of a field name, keeping its
position; identity when the field is absent. -/
def objSetFirst {α : Type} : List (String × α) → String → α → List (String × α)
  | [], _, _ => []
  | (k, v) :: rest, q, w => if k = q then (k, w) :: rest else (k, v) :: objSetFirst rest q w

/-- Set a field: overwrite in place when present, append when absent. -/
def objAdd {α : Type} (l : List (String × α)) (q : String) (w : α) : List (String × α) :=
  if (objGet l q).isSome then objSetFirst l q w else l ++ [(q, w)]

/-- Delete every binding of a field name from an ordered record. -/
def objDel {α : Type} : List (String × α) → String → List (String × α)
  | [], _ => []
  | (k, v) :: rest, q => if k = q then objDel rest q else (k, v) :: objDel rest q

/-- Overwrite the element at an index, keeping the sequence otherwise. -/
def setAt {α : Type} : List α → Nat → α → List α
  | [], _, _ => []
  | _ :: rest, 0, w => w :: rest
  | x :: rest, n + 1, w => x :: setAt rest n w

/-- Insert an element at an index, shifting later elements right. -/
def insertAt {α : Type} : List α → Nat → α → List α
  | l, 0, w => w :: l
  | [], _ + 1, w => [w]
  | x :: rest, n + 1, w => x :: insertAt rest n w

/-- Remove the element at an index, shifting later elements left. -/
def removeAt {α : Type} : List α → Nat → List α
  | [], _ => []
  | _ :: rest, 0 => rest
  | x :: rest, n + 1 => x :: removeAt rest n

/-! ### Content-level model: draft writes, patches, producer, applier -/

/-- Read the child of a container at a key (field of a record, index of a
sequence). -/
def keyGet : PVal → Key → Option PVal
  | .obj l, .fld q => objGet l q
  | .arr xs, .idx i => xs[i]?
  | _, _ => none

/-- Overwrite an existing child of a container in place; fails when the key is
not present or the key kind does not match the container kind. -/
def keySet : PVal → Key → PVal → Option PVal
  | .obj l, .fld q, w => if (objGet l q).isSome then some (.obj (objSetFirst l q w)) else none
  | .arr xs, .idx i, w => if i < xs.length then some (.arr (setAt xs i w)) else none
  | _, _, _ => none

/-- Set a child of a container, creating it when absent: overwrite or append a
record field, insert at an index up to and including the length of a
sequence. -/
def keyAdd : PVal → Key → PVal → Option PVal
  | .obj l, .fld q, w => some (.obj (objAdd l q w))
  | .arr xs, .idx i, w => if i ≤ xs.length then some (.arr (insertAt xs i w)) else none
  | _, _, _ => none

/-- Remove an existing child of a container; sequence removal shifts later
elements left. -/
def keyRemove : PVal → Key → Option PVal
  | .obj l, .fld q => if (objGet l q).isSome then some (.obj (objDel l q)) else none
  | .arr xs, .idx i => if i < xs.length then some (.arr (removeAt xs i)) else none
  | _, _ => none

/-- Walk a non-empty path down a value, apply an action to the final container
together with the final key, and rebuild the spine by in-place child updates
(the same copy-on-write path-walk used by the Draft Tracker, §4.1/§4.4). -/
def walkAt (t : PVal) : List Key → (PVal → Key → Option PVal) → Option PVal
  | [], _ => none
  | [k], f => f t k
  | k :: rest, f => do
      let c ← keyGet t k
      let c' ← walkAt c rest f
      keySet t k c'

/-- Resolve a path to the subtree it addresses. -/
def getPath : PVal → List Key → Option PVal
  | t, [] => some t
  | t, k :: rest => do
      let c ← keyGet t k
      getPath c rest

/-- Replace the subtree at a path, rebuilding the spine in place. -/
def setPath : PVal → List Key → PVal → Option PVal
  | _, [], w => some w
  | t, k :: rest, w => do
      let c ← keyGet t k
      let c' ← setPath c rest w
      keySet t k c'

/-- The terminal action of a patch operation at the final container and key. -/
def termF (op : POp) (w : Option PVal) (c : PVal) (k : Key) : Option PVal :=
  match op, w with
  | .replace, some x => keySet c k x
  | .add, some x => keyAdd c k x
  | .remove, _ => keyRemove c k
  | _, _ => none

/-- Modelled from the spec: application of one patch (§4.4).  A patch with an
empty path replaces the whole value; otherwise the path is walked and the op
is applied at the final key.  Returns none when the path fails to resolve. -/
def applyCore (t : PVal) (p : Patch) : Option PVal :=
  match p.path with
  | [] =>
    match p.op, p.value with
    | .replace, some w => some w
    | _, _ => none
  | _ :: _ => walkAt t p.path (termF p.op p.value)

/-- Application of one patch, with failures surfaced as PathNotFound. -/
def applyOp (t : PVal) (p : Patch) : Except AErr PVal :=
  match applyCore t p with
  | some t' => .ok t'
  | none => .error .pathNotFound

/-- Modelled from the spec: the Patch Applier `applyPatches` (§4.4), missing
from the repository, which replays a patch sequence in order against a base
value, immutably; the first patch whose path fails to resolve aborts the whole
application with a PathNotFound error. -/
def applyPatches (t : PVal) : List Patch → Except AErr PVal
  | [] => .ok t
  | p :: ps =>
    match applyOp t p with
    | .ok t' => applyPatches t' ps
    | .error e => .error e

/-- Modelled from the spec: the Patch Recorder (§4.2), missing from the
repository.  For one observed draft write it emits the forward patch and the
matching inverse patch capturing the prior value: replace/replace for an
overwrite, add/remove for a creation, remove/add for a deletion, and add at
the current length with inverse remove for an append. -/
def recordMut (t : PVal) : Mutation → Option (Patch × Patch)
  | .mset q k v => do
      let c ← getPath t q
      match keyGet c k with
      | some o => pure (⟨.replace, q ++ [k], some v⟩, ⟨.replace, q ++ [k], some o⟩)
      | none => pure (⟨.add, q ++ [k], some v⟩, ⟨.remove, q ++ [k], none⟩)
  | .mdel q k => do
      let c ← getPath t q
      let o ← keyGet c k
      pure (⟨.remove, q ++ [k], none⟩, ⟨.add, q ++ [k], some o⟩)
  | .mpush q v => do
      let c ← getPath t q
      match c with
      | .arr xs => pure (⟨.add, q ++ [.idx xs.length], some v⟩, ⟨.remove, q ++ [.idx xs.length], none⟩)
      | _ => none

/-- One draft write applied to the session value, together with the recorded
forward and inverse patches; the write itself is the application of the
forward patch. -/
def applyMut (t : PVal) (m : Mutation) : Option (PVal × Patch × Patch) := do
  let (f, b) ← recordMut t m
  match applyCore t f with
  | some t' => pure (t', f, b)
  | none => none

/-- Run the ordered draft writes of one edit session, accumulating the forward
patch list and the inverse patch list, both in observation order (§4.2). -/
def runMuts (t : PVal) : List Mutation → Option (PVal × List Patch × List Patch)
  | [] => some (t, [], [])
  | m :: ms => do
      let (t₁, f, b) ← applyMut t m
      let (t₂, fs, bs) ← runMuts t₁ ms
      pure (t₂, f :: fs, b :: bs)

/-- Modelled from the spec: `produceWithPatches` (§4.3, §6), missing from the
repository.  Runs the edit session and finalizes according to the edit
function's return: nothing/the draft keeps the drafted result; a replacement
value replaces the result entirely (the draft's writes are discarded, the
session's patch set collapses to a root replace); the erase sentinel produces
the designated absent value (undefined). -/
def produceWithPatches (t : PVal) (E : EditFn) : Option (PVal × List Patch × List Patch) := do
  let (t', fs, bs) ← runMuts t E.muts
  match E.ret with
  | .void => pure (t', fs, bs)
  | .draftItself => pure (t', fs, bs)
  | .replacement r => pure (r, [⟨.replace, [], some r⟩], [⟨.replace, [], some t⟩])
  | .nothing => pure (.prim .undef, [⟨.replace, [], some (.prim .undef)⟩], [⟨.replace, [], some t⟩])

/-- Modelled from the spec: `produce` (§4.3, §6), missing from the repository:
the produced value of the edit session. -/
def produce (t : PVal) (E : EditFn) : Option PVal :=
  (produceWithPatches t E).map (·.1)

/-- Modelled from the spec and the demo script's call shape: `produce` with a
third argument, a patch listener fed the session's forward and inverse patch
sets once the edit function has completed.  The returned list logs the
listener invocations in order. -/
def produceListen {α : Type} (t : PVal) (E : EditFn) (L : List Patch → List Patch → α) :
    Option (PVal × List α) :=
  (produceWithPatches t E).map fun x => (x.1, [L x.2.1 x.2.2])

/-! ### Content equivalence

Deep content equality of values, as observed by the host language's deep
equality: records compare as key-to-value maps (insertion order is not
content), sequences compare pointwise. -/

/-- Content equivalence of two values. -/
inductive VEquiv : PVal → PVal → Prop where
  | prim (s : Scalar) : VEquiv (.prim s) (.prim s)
  | obj (l m : List (String × PVal)) :
      (∀ k v w, objGet l k = some v → objGet m k = some w → VEquiv v w) →
      (∀ k, (objGet l k).isSome = (objGet m k).isSome) →
      VEquiv (.obj l) (.obj m)
  | arr (xs ys : List PVal) :
      xs.length = ys.length →
      (∀ (i : Nat) (v w : PVal), xs[i]? = some v → ys[i]? = some w → VEquiv v w) →
      VEquiv (.arr xs) (.arr ys)

/-! ## Heap-level model

Container nodes live in a store and are addressed by reference, so that
reference identity, absence of base mutation, and structural sharing are
directly expressible.  The store is append-only: the copy-on-write writes of
the Draft Tracker allocate fresh nodes and never update an existing cell. -/

namespace Heap

/-- A heap value: a reference to a container node in the store, or an
immediate literal value (scalars, and values written into the draft by the
edit function). -/
inductive HVal where
  | ref : Nat → HVal
  | lit : PVal → HVal
deriving Repr

/-- Modelled from the spec: one container of the base tree (§3), its children
addressed by reference or immediate. -/
inductive Node where
  | nobj : List (String × HVal) → Node
  | narr : List HVal → Node
deriving Repr

/-- The store: container nodes addressed by position; allocation appends. -/
abbrev Store := List Node

/-- Read a child of a node. -/
def nodeGet : Node → Key → Option HVal
  | .nobj l, .fld q => objGet l q
  | .narr xs, .idx i => xs[i]?
  | _, _ => none

/-- Overwrite an existing child of a node. -/
def nodeSet : Node → Key → HVal → Option Node
  | .nobj l, .fld q, w => if (objGet l q).isSome then some (.nobj (objSetFirst l q w)) else none
  | .narr xs, .idx i, w => if i < xs.length then some (.narr (setAt xs i w)) else none
  | _, _, _ => none

/-- Resolve a path against the store: through references via node lookups,
through literal subtrees via pure key lookups. -/
def resolve (st : Store) : HVal → List Key → Option HVal
  | v, [] => some v
  | .ref i, k :: rest => do
      let n ← st[i]?
      let c ← nodeGet n k
      resolve st c rest
  | .lit w, k :: rest => do
      let c ← keyGet w k
      resolve st (.lit c) rest

/-- The container path a draft write addresses. -/
def mpath : Mutation → List Key
  | .mset q _ _ => q
  | .mdel q _ => q
  | .mpush q _ => q

/-- Pure-level terminal action of one draft write at its target container. -/
def mutTerm : Mutation → PVal → Option PVal
  | .mset _ k w, c =>
    match keyGet c k with
    | some _ => keySet c k w
    | none => keyAdd c k w
  | .mdel _ k, c => keyRemove c k
  | .mpush _ w, c =>
    match c with
    | .arr xs => some (.arr (xs ++ [w]))
    | _ => none

/-- Node-level terminal action of one draft write; values written by the edit
function enter the tree as literals. -/
def mutTermN : Mutation → Node → Option Node
  | .mset _ k w, n =>
    match nodeGet n k with
    | some _ => nodeSet n k (.lit w)
    | none =>
      match n, k with
      | .nobj l, .fld q => some (.nobj (l ++ [(q, .lit w)]))
      | .narr xs, .idx i => if i = xs.length then some (.narr (xs ++ [.lit w])) else none
      | _, _ => none
  | .mdel _ k, n =>
    match n, k with
    | .nobj l, .fld q => if (objGet l q).isSome then some (.nobj (objDel l q)) else none
    | .narr xs, .idx i => if i < xs.length then some (.narr (removeAt xs i)) else none
    | _, _ => none
  | .mpush _ w, n =>
    match n with
    | .narr xs => some (.narr (xs ++ [.lit w]))
    | _ => none

/-- Pure path-edit used when a write lands inside a literal subtree. -/
def editAtP : PVal → List Key → (PVal → Option PVal) → Option PVal
  | w, [], fP => fP w
  | w, k :: rest, fP => do
      let c ← keyGet w k
      let c' ← editAtP c rest fP
      keySet w k c'

/-- Modelled from the spec: the copy-on-write write of the Draft Tracker
(§4.1).  Walking the container path, each node along the path is re-allocated
as a shallow copy with exactly one child reference replaced, all other
children keeping their references to the base; the container at the end of
the path receives the write.  The store is append-only: a write never updates
an existing cell, so the base tree stays intact. -/
def writeS (st : Store) : HVal → List Key → (Node → Option Node) → (PVal → Option PVal) →
    Option (Store × HVal)
  | .lit w, path, _, fP => (editAtP w path fP).map fun w' => (st, HVal.lit w')
  | .ref i, [], fN, _ => do
      let n ← st[i]?
      let n' ← fN n
      some (st ++ [n'], HVal.ref st.length)
  | .ref i, k :: rest, fN, fP => do
      let n ← st[i]?
      let c ← nodeGet n k
      let (st', c') ← writeS st c rest fN fP
      let n' ← nodeSet n k c'
      some (st' ++ [n'], HVal.ref st'.length)

/-- One draft write against the heap. -/
def applyMutS (st : Store) (v : HVal) (m : Mutation) : Option (Store × HVal) :=
  writeS st v (mpath m) (mutTermN m) (mutTerm m)

/-- The ordered draft writes of one edit session against the heap. -/
def runMutsS (st : Store) (v : HVal) : List Mutation → Option (Store × HVal)
  | [] => some (st, v)
  | m :: ms => do
      let (st₁, v₁) ← applyMutS st v m
      runMutsS st₁ v₁ ms

/-- Modelled from the spec: the Producer `produce` (§4.3) over the heap,
missing from the repository.  Runs the session's writes, then finalizes
according to the edit function's return: nothing/the draft keeps the drafted
root (if nothing was written, this is the base reference itself); a
replacement value replaces the result; the erase sentinel produces the
designated absent value (undefined). -/
def produce (st : Store) (v : HVal) (E : EditFn) : Option (Store × HVal) := do
  let (st', v') ← runMutsS st v E.muts
  match E.ret with
  | .void => some (st', v')
  | .draftItself => some (st', v')
  | .replacement r => some (st', .lit r)
  | .nothing => some (st', .lit (.prim .undef))

/-- A heap value is closed under a bound: any reference points below it. -/
def valOK (bound : Nat) : HVal → Bool
  | .ref i => decide (i < bound)
  | .lit _ => true

/-- A node is closed under a bound. -/
def nodeOK (bound : Nat) : Node → Bool
  | .nobj l => l.all fun kv => valOK bound kv.2
  | .narr xs => xs.all (valOK bound)

/-- A store is closed: every node only references existing cells. -/
def storeOK (st : Store) : Bool := st.all (nodeOK st.length)

/-- Does the first path start the second (is it a prefix)? -/
def isPre : List Key → List Key → Bool
  | [], _ => true
  | _ :: _, [] => false
  | a :: q, b :: p => decide (a = b) && isPre q p

/-- Modelled from the spec (§8, structural sharing): whether one draft write
can touch the base subtree at a path — the path is an ancestor of the written
container, or lies at or under the written child, or, for an index removal,
at or after the removed index of the same sequence (later elements shift). -/
def mTouches : Mutation → List Key → Bool
  | .mset q k _, p => isPre p q || isPre (q ++ [k]) p
  | .mdel q (.fld f0), p => isPre p q || isPre (q ++ [.fld f0]) p
  | .mdel q (.idx i), p =>
    isPre p q ||
      (isPre q p &&
        match p.drop q.length with
        | .idx j :: _ => decide (i ≤ j)
        | _ => false)
  | .mpush q _, p => isPre p q

/-- A path of the base untouched by the whole edit session. -/
def untouched (E : EditFn) (p : List Key) : Bool :=
  E.muts.all fun m => !(mTouches m p)

/-- The child keys of the written container that one draft write leaves
alone. -/
def keepKey : Mutation → Key → Bool
  | .mset _ k _, k' => !(decide (k' = k))
  | .mdel _ (.fld f0), k' => !(decide (k' = Key.fld f0))
  | .mdel _ (.idx i), k' =>
    match k' with
    | .idx j => decide (j < i)
    | .fld _ => true
  | .mpush _ _, _ => true

/-- A probe path avoids a write path: it neither ends on the write path nor
descends through the written child. -/
def disjB : List Key → (Key → Bool) → List Key → Bool
  | _, _, [] => false
  | [], P, k :: _ => P k
  | a :: q, P, b :: p => !(decide (a = b)) || disjB q P p

end Heap

theorem objGet_objSetFirst {α : Type} (l : List (String × α)) (q q' : String) (w : α) :
    objGet (objSetFirst l q w) q' =
      if q' = q ∧ (objGet l q).isSome then some w else objGet l q' := by
  induction l with
  | nil => simp [objGet, objSetFirst]
  | cons kv rest ih =>
    obtain ⟨k, v⟩ := kv
    by_cases hk : k = q
    · subst hk
      by_cases hq : q' = k
      · subst hq
        simp [objGet, objSetFirst]
      · simp [objGet, objSetFirst, hq, (show ¬ k = q' from fun h => hq h.symm)]
    · by_cases hkq : k = q'
      · subst hkq
        simp [objGet, objSetFirst, hk, (show ¬ (k = q ∧ (objGet rest q).isSome = true) from
          fun h => hk h.1)]
      · simp [objGet, objSetFirst, hk, hkq, ih]

theorem objSetFirst_of_none {α : Type} (l : List (String × α)) (q : String) (w : α)
    (h : objGet l q = none) : objSetFirst l q w = l := by
  induction l with
  | nil => simp [objSetFirst]
  | cons kv rest ih =>
    obtain ⟨k, v⟩ := kv
    by_cases hk : k = q
    · simp [objGet, hk] at h
    · simp [objGet, hk] at h
      simp [objSetFirst, hk, ih h]

theorem objSetFirst_self {α : Type} (l : List (String × α)) (q : String) (o : α)
    (h : objGet l q = some o) : objSetFirst l q o = l := by
  induction l with
  | nil => simp [objGet] at h
  | cons kv rest ih =>
    obtain ⟨k, v⟩ := kv
    by_cases hk : k = q
    · subst hk
      simp [objGet] at h
      simp [objSetFirst, h]
    · simp [objGet, hk] at h
      simp [objSetFirst, hk, ih h]

theorem objSetFirst_objSetFirst {α : Type} (l : List (String × α)) (q : String) (a b : α) :
    objSetFirst (objSetFirst l q a) q b = objSetFirst l q b := by
  induction l with
  | nil => simp [objSetFirst]
  | cons kv rest ih =>
    obtain ⟨k, v⟩ := kv
    by_cases hk : k = q <;> simp [objSetFirst, hk, ih]

theorem objGet_objDel {α : Type} (l : List (String × α)) (q q' : String) :
    objGet (objDel l q) q' = if q' = q then none else objGet l q' := by
  induction l with
  | nil => simp [objGet, objDel]
  | cons kv rest ih =>
    obtain ⟨k, v⟩ := kv
    by_cases hk : k = q
    · subst hk
      by_cases hq : q' = k
      · subst hq
        simp [objGet, objDel, ih]
      · simp [objGet, objDel, ih, hq, (show ¬ k = q' from fun h => hq h.symm)]
    · by_cases hkq : k = q'
      · subst hkq
        simp [objGet, objDel, hk, (show ¬ k = q from hk)]
      · simp [objGet, objDel, hk, hkq, ih]

theorem objDel_of_none {α : Type} (l : List (String × α)) (q : String)
    (h : objGet l q = none) : objDel l q = l := by
  induction l with
  | nil => simp [objDel]
  | cons kv rest ih =>
    obtain ⟨k, v⟩ := kv
    by_cases hk : k = q
    · simp [objGet, hk] at h
    · simp [objGet, hk] at h
      simp [objDel, hk, ih h]

theorem objDel_append_single {α : Type} (l : List (String × α)) (q : String) (w : α)
    (h : objGet l q = none) : objDel (l ++ [(q, w)]) q = l := by
  induction l with
  | nil => simp [objDel]
  | cons kv rest ih =>
    obtain ⟨k, v⟩ := kv
    by_cases hk : k = q
    · simp [objGet, hk] at h
    · simp [objGet, hk] at h
      simp [objDel, hk, ih h]

theorem objGet_append {α : Type} (l₁ l₂ : List (String × α)) (q : String) :
    objGet (l₁ ++ l₂) q = (objGet l₁ q).orElse (fun _ => objGet l₂ q) := by
  induction l₁ with
  | nil => simp [objGet]
  | cons kv rest ih =>
    obtain ⟨k, v⟩ := kv
    by_cases hk : k = q <;> simp [objGet, hk, ih]

theorem getElem?_setAt {α : Type} (l : List α) (n m : Nat) (w : α) :
    (setAt l n w)[m]? = if m = n ∧ n < l.length then some w else l[m]? := by
  induction l generalizing n m with
  | nil => simp [setAt]
  | cons x rest ih =>
    cases n with
    | zero =>
      cases m with
      | zero => simp [setAt]
      | succ m => simp [setAt]
    | succ n =>
      cases m with
      | zero => simp [setAt]
      | succ m => simp [setAt, ih, Nat.succ_lt_succ_iff]

theorem length_setAt {α : Type} (l : List α) (n : Nat) (w : α) :
    (setAt l n w).length = l.length := by
  induction l generalizing n with
  | nil => simp [setAt]
  | cons x rest ih =>
    cases n with
    | zero => simp [setAt]
    | succ n => simp [setAt, ih]

theorem setAt_self {α : Type} (l : List α) (n : Nat) (o : α)
    (h : l[n]? = some o) : setAt l n o = l := by
  induction l generalizing n with
  | nil => simp at h
  | cons x rest ih =>
    cases n with
    | zero => simp at h; simp [setAt, h]
    | succ n => simp at h; simp [setAt, ih n h]

theorem setAt_setAt {α : Type} (l : List α) (n : Nat) (a b : α) :
    setAt (setAt l n a) n b = setAt l n b := by
  induction l generalizing n with
  | nil => simp [setAt]
  | cons x rest ih =>
    cases n with
    | zero => simp [setAt]
    | succ n => simp [setAt, ih]

theorem insertAt_length_self {α : Type} (l : List α) (w : α) :
    insertAt l l.length w = l ++ [w] := by
  induction l with
  | nil => simp [insertAt]
  | cons x rest ih => simp [insertAt, ih]

theorem removeAt_append_length {α : Type} (l : List α) (w : α) :
    removeAt (l ++ [w]) l.length = l := by
  induction l with
  | nil => simp [removeAt]
  | cons x rest ih => simp [removeAt, ih]

theorem insertAt_removeAt {α : Type} (l : List α) (n : Nat) (o : α)
    (h : l[n]? = some o) : insertAt (removeAt l n) n o = l := by
  induction l generalizing n with
  | nil => simp at h
  | cons x rest ih =>
    cases n with
    | zero => simp at h; simp [removeAt, insertAt, h]
    | succ n => simp at h; simp [removeAt, insertAt, ih n h]

theorem removeAt_insertAt {α : Type} (l : List α) (n : Nat) (w : α)
    (h : n ≤ l.length) : removeAt (insertAt l n w) n = l := by
  induction l generalizing n with
  | nil =>
    have h0 : n = 0 := Nat.le_zero.mp (by simpa using h)
    subst h0
    simp [insertAt, removeAt]
  | cons x rest ih =>
    cases n with
    | zero => simp [insertAt, removeAt]
    | succ n =>
      simp at h
      simp [insertAt, removeAt, ih n h]

theorem getElem?_insertAt {α : Type} (l : List α) (n : Nat) (w : α) (m : Nat) (h : n ≤ l.length) :
    (insertAt l n w)[m]? =
      if m < n then l[m]? else if m = n then some w else l[m - 1]? := by
  induction l generalizing n m with
  | nil =>
    have h0 : n = 0 := Nat.le_zero.mp (by simpa using h)
    subst h0
    cases m <;> simp [insertAt]
  | cons x rest ih =>
    cases n with
    | zero =>
      cases m with
      | zero => simp [insertAt]
      | succ m => simp [insertAt]
    | succ n =>
      cases m with
      | zero => simp [insertAt]
      | succ m =>
        simp at h
        simp only [insertAt, List.getElem?_cons_succ, ih n m h]
        rcases Nat.lt_trichotomy m n with h1 | h1 | h1
        · simp [h1, Nat.succ_lt_succ_iff.mpr h1]
        · subst h1
          simp
        · obtain ⟨m', rfl⟩ : ∃ m', m = m' + 1 := ⟨m - 1, by omega⟩
          have h3 : ¬ (m' + 1 < n) := by omega
          have h4 : ¬ (m' + 1 = n) := by omega
          have h5 : ¬ (m' + 1 + 1 < n + 1) := by omega
          have h6 : ¬ (m' + 1 + 1 = n + 1) := by omega
          simp [h3, h4, h5, h6]

theorem getElem?_removeAt {α : Type} (l : List α) (n m : Nat) :
    (removeAt l n)[m]? = if m < n then l[m]? else l[m + 1]? := by
  induction l generalizing n m with
  | nil => cases m <;> simp [removeAt]
  | cons x rest ih =>
    cases n with
    | zero => simp [removeAt]
    | succ n =>
      cases m with
      | zero => simp [removeAt]
      | succ m => simp [removeAt, ih, Nat.succ_lt_succ_iff]

theorem length_removeAt {α : Type} (l : List α) (n : Nat) (h : n < l.length) :
    (removeAt l n).length = l.length - 1 := by
  induction l generalizing n with
  | nil => simp at h
  | cons x rest ih =>
    cases n with
    | zero => simp [removeAt]
    | succ n =>
      simp at h
      simp [removeAt, ih n h]
      omega

theorem length_insertAt {α : Type} (l : List α) (n : Nat) (w : α) (h : n ≤ l.length) :
    (insertAt l n w).length = l.length + 1 := by
  induction l generalizing n with
  | nil =>
    have h0 : n = 0 := Nat.le_zero.mp (by simpa using h)
    subst h0
    simp [insertAt]
  | cons x rest ih =>
    cases n with
    | zero => simp [insertAt]
    | succ n =>
      simp at h
      simp [insertAt, ih n h]

theorem sizeOf_objGet {α : Type} [SizeOf α] :
    ∀ (l : List (String × α)) (k : String) (v : α), objGet l k = some v → sizeOf v < sizeOf l := by
  intro l
  induction l with
  | nil => intro k v h; simp [objGet] at h
  | cons kv rest ih =>
    obtain ⟨k', v'⟩ := kv
    intro k v h
    by_cases hk : k' = k
    · simp [objGet, hk] at h
      subst h
      simp
      omega
    · simp [objGet, hk] at h
      have := ih k v h
      simp
      omega

theorem sizeOf_getElem? {α : Type} [SizeOf α] :
    ∀ (l : List α) (i : Nat) (v : α), l[i]? = some v → sizeOf v < sizeOf l := by
  intro l
  induction l with
  | nil => intro i v h; simp at h
  | cons x rest ih =>
    intro i v h
    cases i with
    | zero =>
      simp at h
      subst h
      simp
      omega
    | succ i =>
      simp at h
      have := ih i v h
      simp
      omega

theorem vequiv_refl : ∀ (t : PVal), VEquiv t t
  | .prim s => .prim s
  | .obj l => .obj l l
      (fun k v w hv hw => by
        rw [hv] at hw
        injection hw with hvw
        subst hvw
        exact vequiv_refl v)
      (fun _ => rfl)
  | .arr xs => .arr xs xs rfl
      (fun i v w hv hw => by
        rw [hv] at hw
        injection hw with hvw
        subst hvw
        exact vequiv_refl v)
termination_by t => sizeOf t
decreasing_by
  · have := sizeOf_objGet l k v hv
    simp
    omega
  · have := sizeOf_getElem? xs i v hv
    simp
    omega

theorem vequiv_symm : ∀ {a b : PVal}, VEquiv a b → VEquiv b a := by
  intro a b h
  induction h with
  | prim s => exact .prim s
  | obj l m hv hd ih => exact .obj m l (fun k v w hv2 hw2 => ih k w v hw2 hv2) (fun k => (hd k).symm)
  | arr xs ys hl hv ih => exact .arr ys xs hl.symm (fun i v w hv2 hw2 => ih i w v hw2 hv2)

theorem vequiv_trans : ∀ {a b c : PVal}, VEquiv a b → VEquiv b c → VEquiv a c := by
  intro a b c h₁
  induction h₁ generalizing c with
  | prim s => intro h₂; exact h₂
  | obj l m hv hd ih =>
    intro h₂
    cases h₂ with
    | obj m n hv2 hd2 =>
      refine .obj l n (fun k v u hlv hnu => ?_) (fun k => (hd k).trans (hd2 k))
      have hm : (objGet m k).isSome := by rw [← hd k, hlv]; rfl
      obtain ⟨w, hw⟩ := Option.isSome_iff_exists.mp hm
      exact ih k v w hlv hw (hv2 k w u hw hnu)
  | arr xs ys hl hv ih =>
    intro h₂
    cases h₂ with
    | arr ys zs hl2 hv2 =>
      refine .arr xs zs (hl.trans hl2) (fun i v u hxv hzu => ?_)
      have hi : i < xs.length := by
        by_contra hcon
        rw [List.getElem?_eq_none (by omega)] at hxv
        cases hxv
      have hy : i < ys.length := hl ▸ hi
      have hw := List.getElem?_eq_getElem hy
      exact ih i v _ hxv hw (hv2 i _ u hw hzu)

/-! ### Key-level algebra -/

theorem keySet_keyGet {t t' c' : PVal} {k : Key} (h : keySet t k c' = some t') :
    keyGet t' k = some c' := by
  cases t with
  | prim s => simp [keySet] at h
  | obj l =>
    cases k with
    | fld q =>
      by_cases hs : (objGet l q).isSome
      · simp [keySet, hs] at h
        subst h
        simp [keyGet, objGet_objSetFirst, hs]
      · simp [keySet, hs] at h
    | idx i => simp [keySet] at h
  | arr xs =>
    cases k with
    | fld q => simp [keySet] at h
    | idx i =>
      by_cases hi : i < xs.length
      · simp [keySet, hi] at h
        subst h
        simp [keyGet, getElem?_setAt, hi]
      · simp [keySet, hi] at h

theorem keySet_keySet {t t₁ : PVal} {k : Key} {a b : PVal} (h : keySet t k a = some t₁) :
    keySet t₁ k b = keySet t k b := by
  cases t with
  | prim s => simp [keySet] at h
  | obj l =>
    cases k with
    | fld q =>
      by_cases hs : (objGet l q).isSome
      · simp [keySet, hs] at h
        subst h
        simp [keySet, objGet_objSetFirst, hs, objSetFirst_objSetFirst]
      · simp [keySet, hs] at h
    | idx i => simp [keySet] at h
  | arr xs =>
    cases k with
    | fld q => simp [keySet] at h
    | idx i =>
      by_cases hi : i < xs.length
      · simp [keySet, hi] at h
        subst h
        simp [keySet, length_setAt, hi, setAt_setAt]
      · simp [keySet, hi] at h

theorem keySet_self {t c : PVal} {k : Key} (h : keyGet t k = some c) :
    keySet t k c = some t := by
  cases t with
  | prim s => simp [keyGet] at h
  | obj l =>
    cases k with
    | fld q =>
      simp [keyGet] at h
      simp [keySet, h, objSetFirst_self l q c h]
    | idx i => simp [keyGet] at h
  | arr xs =>
    cases k with
    | fld q => simp [keyGet] at h
    | idx i =>
      simp [keyGet] at h
      have hi : i < xs.length := by
        by_contra hcon
        rw [List.getElem?_eq_none (by omega)] at h
        cases h
      simp [keySet, hi, setAt_self xs i c h]

theorem keySet_isSome {t c w : PVal} {k : Key} (h : keyGet t k = some c) :
    ∃ t', keySet t k w = some t' := by
  cases t with
  | prim s => simp [keyGet] at h
  | obj l =>
    cases k with
    | fld q =>
      simp [keyGet] at h
      exact ⟨PVal.obj (objSetFirst l q w), by simp [keySet, h]⟩
    | idx i => simp [keyGet] at h
  | arr xs =>
    cases k with
    | fld q => simp [keyGet] at h
    | idx i =>
      simp [keyGet] at h
      have hi : i < xs.length := by
        by_contra hcon
        rw [List.getElem?_eq_none (by omega)] at h
        cases h
      exact ⟨PVal.arr (setAt xs i w), by simp [keySet, hi]⟩

theorem objGet_append_some {α : Type} {l₁ : List (String × α)} (l₂ : List (String × α))
    {q : String} {v : α} (h : objGet l₁ q = some v) : objGet (l₁ ++ l₂) q = some v := by
  rw [objGet_append, h]
  rfl

theorem objGet_append_none {α : Type} {l₁ : List (String × α)} (l₂ : List (String × α))
    {q : String} (h : objGet l₁ q = none) : objGet (l₁ ++ l₂) q = objGet l₂ q := by
  rw [objGet_append, h]
  rfl

theorem vequiv_objSetFirst {l m : List (String × PVal)} {q : String} {a b : PVal}
    (hv : ∀ k v w, objGet l k = some v → objGet m k = some w → VEquiv v w)
    (hd : ∀ k, (objGet l k).isSome = (objGet m k).isSome)
    (hab : VEquiv a b) :
    VEquiv (.obj (objSetFirst l q a)) (.obj (objSetFirst m q b)) := by
  refine .obj _ _ (fun k' v w hv' hw' => ?_) (fun k' => ?_)
  · rw [objGet_objSetFirst] at hv' hw'
    by_cases hk' : k' = q
    · by_cases hs : (objGet l q).isSome
      · have hm : (objGet m q).isSome := by rw [← hd q]; exact hs
        simp [hk', hs] at hv'
        simp [hk', hm] at hw'
        subst hv'
        subst hw'
        exact hab
      · have hm : ¬ (objGet m q).isSome = true := by rw [← hd q]; exact hs
        simp [hk', hs] at hv'
        simp [hk', hm] at hw'
        exact hv q v w hv' hw'
    · simp [hk'] at hv' hw'
      exact hv k' v w hv' hw'
  · rw [objGet_objSetFirst, objGet_objSetFirst]
    by_cases hk' : k' = q
    · by_cases hs : (objGet l q).isSome
      · have hm : (objGet m q).isSome := by rw [← hd q]; exact hs
        simp [hk', hs, hm]
      · have hm : ¬ (objGet m q).isSome = true := by rw [← hd q]; exact hs
        simp [hk', hs, hm, hd k']
    · simp [hk', hd k']

theorem vequiv_objAppend {l m : List (String × PVal)} {q : String} {a b : PVal}
    (hv : ∀ k v w, objGet l k = some v → objGet m k = some w → VEquiv v w)
    (hd : ∀ k, (objGet l k).isSome = (objGet m k).isSome)
    (hln : objGet l q = none) (hmn : objGet m q = none)
    (hab : VEquiv a b) :
    VEquiv (.obj (l ++ [(q, a)])) (.obj (m ++ [(q, b)])) := by
  refine .obj _ _ (fun k' v w hv' hw' => ?_) (fun k' => ?_)
  · by_cases hk' : k' = q
    · subst hk'
      rw [objGet_append_none _ hln] at hv'
      rw [objGet_append_none _ hmn] at hw'
      simp [objGet] at hv' hw'
      subst hv'
      subst hw'
      exact hab
    · cases hlv : objGet l k' with
      | none =>
        rw [objGet_append_none _ hlv] at hv'
        simp [objGet, (show ¬ q = k' from fun h => hk' h.symm)] at hv'
      | some v0 =>
        rw [objGet_append_some _ hlv] at hv'
        have hm : (objGet m k').isSome := by rw [← hd k', hlv]; rfl
        obtain ⟨w0, hmw⟩ := Option.isSome_iff_exists.mp hm
        rw [objGet_append_some _ hmw] at hw'
        injection hv' with h1
        injection hw' with h2
        subst h1
        subst h2
        exact hv k' v0 w0 hlv hmw
  · by_cases hk' : k' = q
    · subst hk'
      rw [objGet_append_none _ hln, objGet_append_none _ hmn]
      simp [objGet]
    · cases hlv : objGet l k' with
      | none =>
        have hmv : objGet m k' = none := by
          have := hd k'
          rw [hlv] at this
          cases hmv2 : objGet m k' with
          | none => rfl
          | some w0 => rw [hmv2] at this; simp at this
        rw [objGet_append_none _ hlv, objGet_append_none _ hmv]
        simp [objGet, (show ¬ q = k' from fun h => hk' h.symm)]
      | some v0 =>
        have hm : (objGet m k').isSome := by rw [← hd k', hlv]; rfl
        obtain ⟨w0, hmw⟩ := Option.isSome_iff_exists.mp hm
        rw [objGet_append_some _ hlv, objGet_append_some _ hmw]
        rfl

theorem vequiv_objDel {l m : List (String × PVal)} {q : String}
    (hv : ∀ k v w, objGet l k = some v → objGet m k = some w → VEquiv v w)
    (hd : ∀ k, (objGet l k).isSome = (objGet m k).isSome) :
    VEquiv (.obj (objDel l q)) (.obj (objDel m q)) := by
  refine .obj _ _ (fun k' v w hv' hw' => ?_) (fun k' => ?_)
  · rw [objGet_objDel] at hv' hw'
    by_cases hk' : k' = q
    · simp [hk'] at hv'
    · simp [hk'] at hv' hw'
      exact hv k' v w hv' hw'
  · rw [objGet_objDel, objGet_objDel]
    by_cases hk' : k' = q
    · simp [hk']
    · simp [hk', hd k']

theorem keyGet_congr {t s c : PVal} {k : Key} (h : VEquiv t s) (hc : keyGet t k = some c) :
    ∃ d, keyGet s k = some d ∧ VEquiv c d := by
  cases h with
  | prim s0 => simp [keyGet] at hc
  | obj l m hv hd =>
    cases k with
    | fld q =>
      simp [keyGet] at hc ⊢
      have hm : (objGet m q).isSome := by rw [← hd q, hc]; rfl
      obtain ⟨d, hdq⟩ := Option.isSome_iff_exists.mp hm
      exact ⟨d, hdq, hv q c d hc hdq⟩
    | idx i => simp [keyGet] at hc
  | arr xs ys hl hv =>
    cases k with
    | fld q => simp [keyGet] at hc
    | idx i =>
      simp [keyGet] at hc ⊢
      have hi : i < xs.length := by
        by_contra hcon
        rw [List.getElem?_eq_none (by omega)] at hc
        cases hc
      have hy : i < ys.length := hl ▸ hi
      have hw := List.getElem?_eq_getElem hy
      exact ⟨_, hw, hv i c _ hc hw⟩

theorem keySet_congr {t s a b x : PVal} {k : Key} (h : VEquiv t s) (hab : VEquiv a b)
    (hx : keySet t k a = some x) : ∃ y, keySet s k b = some y ∧ VEquiv x y := by
  cases h with
  | prim s0 => simp [keySet] at hx
  | obj l m hv hd =>
    cases k with
    | fld q =>
      by_cases hs : (objGet l q).isSome
      · simp [keySet, hs] at hx
        subst hx
        have hm : (objGet m q).isSome := by rw [← hd q]; exact hs
        exact ⟨.obj (objSetFirst m q b), by simp [keySet, hm],
          vequiv_objSetFirst hv hd hab⟩
      · simp [keySet, hs] at hx
    | idx i => simp [keySet] at hx
  | arr xs ys hl hv =>
    cases k with
    | fld q => simp [keySet] at hx
    | idx i =>
      by_cases hi : i < xs.length
      · simp [keySet, hi] at hx
        subst hx
        have hy : i < ys.length := hl ▸ hi
        refine ⟨.arr (setAt ys i b), by simp [keySet, hy], ?_⟩
        refine .arr _ _ (by simp [length_setAt, hl]) (fun j v w hv2 hw2 => ?_)
        rw [getElem?_setAt] at hv2 hw2
        by_cases hj : j = i
        · simp [hj, hi] at hv2
          simp [hj, hy] at hw2
          subst hv2
          subst hw2
          exact hab
        · simp [hj] at hv2 hw2
          exact hv j v w hv2 hw2
      · simp [keySet, hi] at hx

theorem keyAdd_congr {t s a b x : PVal} {k : Key} (h : VEquiv t s) (hab : VEquiv a b)
    (hx : keyAdd t k a = some x) : ∃ y, keyAdd s k b = some y ∧ VEquiv x y := by
  cases h with
  | prim s0 => simp [keyAdd] at hx
  | obj l m hv hd =>
    cases k with
    | fld q =>
      simp [keyAdd] at hx
      subst hx
      refine ⟨.obj (objAdd m q b), by simp [keyAdd], ?_⟩
      unfold objAdd
      by_cases hs : (objGet l q).isSome
      · have hm : (objGet m q).isSome := by rw [← hd q]; exact hs
        rw [if_pos hs, if_pos hm]
        exact vequiv_objSetFirst hv hd hab
      · have hm : ¬ (objGet m q).isSome = true := by rw [← hd q]; exact hs
        rw [if_neg hs, if_neg hm]
        exact vequiv_objAppend hv hd (Option.not_isSome_iff_eq_none.mp hs)
          (Option.not_isSome_iff_eq_none.mp hm) hab
    | idx i => simp [keyAdd] at hx
  | arr xs ys hl hv =>
    cases k with
    | fld q => simp [keyAdd] at hx
    | idx i =>
      by_cases hi : i ≤ xs.length
      · simp [keyAdd, hi] at hx
        subst hx
        have hy : i ≤ ys.length := hl ▸ hi
        refine ⟨.arr (insertAt ys i b), by simp [keyAdd, hy], ?_⟩
        refine .arr _ _ (by rw [length_insertAt _ _ _ hi, length_insertAt _ _ _ hy, hl])
          (fun j v w hv2 hw2 => ?_)
        rw [getElem?_insertAt _ _ _ _ hi] at hv2
        rw [getElem?_insertAt _ _ _ _ hy] at hw2
        by_cases h1 : j < i
        · simp [h1] at hv2 hw2
          exact hv j v w hv2 hw2
        · by_cases h2 : j = i
          · simp [h1, h2] at hv2 hw2
            subst hv2
            subst hw2
            exact hab
          · simp [h1, h2] at hv2 hw2
            exact hv (j - 1) v w hv2 hw2
      · simp [keyAdd, hi] at hx

theorem keyRemove_congr {t s x : PVal} {k : Key} (h : VEquiv t s)
    (hx : keyRemove t k = some x) : ∃ y, keyRemove s k = some y ∧ VEquiv x y := by
  cases h with
  | prim s0 => simp [keyRemove] at hx
  | obj l m hv hd =>
    cases k with
    | fld q =>
      by_cases hs : (objGet l q).isSome
      · simp [keyRemove, hs] at hx
        subst hx
        have hm : (objGet m q).isSome := by rw [← hd q]; exact hs
        exact ⟨.obj (objDel m q), by simp [keyRemove, hm], vequiv_objDel hv hd⟩
      · simp [keyRemove, hs] at hx
    | idx i => simp [keyRemove] at hx
  | arr xs ys hl hv =>
    cases k with
    | fld q => simp [keyRemove] at hx
    | idx i =>
      by_cases hi : i < xs.length
      · simp [keyRemove, hi] at hx
        subst hx
        have hy : i < ys.length := hl ▸ hi
        refine ⟨.arr (removeAt ys i), by simp [keyRemove, hy], ?_⟩
        refine .arr _ _ (by rw [length_removeAt _ _ hi, length_removeAt _ _ hy, hl])
          (fun j v w hv2 hw2 => ?_)
        rw [getElem?_removeAt] at hv2 hw2
        by_cases h1 : j < i
        · simp [h1] at hv2 hw2
          exact hv j v w hv2 hw2
        · simp [h1] at hv2 hw2
          exact hv (j + 1) v w hv2 hw2
      · simp [keyRemove, hi] at hx

theorem termF_congr {op : POp} {w : Option PVal} {t s x : PVal} {k : Key}
    (h : VEquiv t s) (hx : termF op w t k = some x) :
    ∃ y, termF op w s k = some y ∧ VEquiv x y := by
  cases op with
  | replace =>
    cases w with
    | some v =>
      simp only [termF] at hx ⊢
      exact keySet_congr h (vequiv_refl v) hx
    | none => simp [termF] at hx
  | add =>
    cases w with
    | some v =>
      simp only [termF] at hx ⊢
      exact keyAdd_congr h (vequiv_refl v) hx
    | none => simp [termF] at hx
  | remove =>
    simp only [termF] at hx ⊢
    exact keyRemove_congr h hx

/-! ### Path-level algebra -/

theorem walkAt_split (f : PVal → Key → Option PVal) (q : List Key) (k : Key) :
    ∀ t : PVal, walkAt t (q ++ [k]) f =
      (getPath t q).bind fun c => (f c k).bind fun c' => setPath t q c' := by
  induction q with
  | nil =>
    intro t
    have h1 : walkAt t ([] ++ [k]) f = f t k := rfl
    rw [h1]
    simp only [getPath, setPath, Option.bind_eq_bind, Option.some_bind]
    cases f t k <;> rfl
  | cons k0 q' ih =>
    intro t
    obtain ⟨k1, rest1, heq⟩ : ∃ k1 rest1, q' ++ [k] = k1 :: rest1 := by
      cases hq : q' ++ [k] with
      | nil => simp at hq
      | cons a b => exact ⟨a, b, rfl⟩
    have h1 : walkAt t ((k0 :: q') ++ [k]) f =
        (keyGet t k0).bind fun c => (walkAt c (q' ++ [k]) f).bind fun c' => keySet t k0 c' := by
      rw [List.cons_append, heq]
      rfl
    rw [h1]
    simp only [getPath, setPath]
    cases hg : keyGet t k0 with
    | none => simp
    | some c0 =>
      simp only [Option.bind_eq_bind, Option.some_bind]
      rw [ih c0]
      cases hgp : getPath c0 q' with
      | none => simp [hgp]
      | some d =>
        simp only [hgp, Option.bind_eq_bind, Option.some_bind]
        cases hf : f d k with
        | none => simp [hgp, hf]
        | some c' => simp [hgp, hf]

theorem setPath_exists {t c : PVal} {q : List Key} (h : getPath t q = some c) (w : PVal) :
    ∃ t', setPath t q w = some t' := by
  induction q generalizing t with
  | nil => exact ⟨w, rfl⟩
  | cons k0 q' ih =>
    simp only [getPath] at h
    cases hg : keyGet t k0 with
    | none => rw [hg] at h; cases h
    | some c0 =>
      simp only [hg, Option.bind_eq_bind, Option.some_bind] at h
      obtain ⟨c0', hc0'⟩ := ih h
      obtain ⟨t', ht'⟩ := keySet_isSome (w := c0') hg
      refine ⟨t', ?_⟩
      simp only [setPath, hg, Option.bind_eq_bind, Option.some_bind, hc0', ht']

theorem setPath_self {t c : PVal} {q : List Key} (h : getPath t q = some c) :
    setPath t q c = some t := by
  induction q generalizing t with
  | nil =>
    simp only [getPath] at h
    injection h with h
    rw [h]
    rfl
  | cons k0 q' ih =>
    simp only [getPath] at h
    cases hg : keyGet t k0 with
    | none => rw [hg] at h; cases h
    | some c0 =>
      simp only [hg, Option.bind_eq_bind, Option.some_bind] at h
      simp only [setPath, hg, Option.bind_eq_bind, Option.some_bind, ih h, keySet_self hg]

theorem getPath_setPath {t t' c : PVal} {q : List Key} (h : setPath t q c = some t') :
    getPath t' q = some c := by
  induction q generalizing t t' with
  | nil =>
    simp only [setPath] at h
    injection h with h
    rw [← h]
    rfl
  | cons k0 q' ih =>
    simp only [setPath] at h
    cases hg : keyGet t k0 with
    | none => rw [hg] at h; cases h
    | some c0 =>
      simp only [hg, Option.bind_eq_bind, Option.some_bind] at h
      cases hs : setPath c0 q' c with
      | none => rw [hs] at h; cases h
      | some c0' =>
        simp only [hs, Option.bind_eq_bind, Option.some_bind] at h
        simp only [getPath, keySet_keyGet h, Option.bind_eq_bind, Option.some_bind]
        exact ih hs

theorem setPath_setPath {t t₁ : PVal} {q : List Key} {a b : PVal}
    (h : setPath t q a = some t₁) : setPath t₁ q b = setPath t q b := by
  induction q generalizing t t₁ with
  | nil => rfl
  | cons k0 q' ih =>
    simp only [setPath] at h ⊢
    cases hg : keyGet t k0 with
    | none => rw [hg] at h; cases h
    | some c0 =>
      simp only [hg, Option.bind_eq_bind, Option.some_bind] at h
      cases hs : setPath c0 q' a with
      | none => rw [hs] at h; cases h
      | some c0' =>
        simp only [hs, Option.bind_eq_bind, Option.some_bind] at h
        rw [keySet_keyGet h]
        simp only [hg, Option.bind_eq_bind, Option.some_bind]
        rw [ih hs]
        cases setPath c0 q' b with
        | none => rfl
        | some x =>
          simp only [Option.bind_eq_bind, Option.some_bind]
          exact keySet_keySet h

theorem getPath_congr {t s c : PVal} {q : List Key} (h : VEquiv t s)
    (hc : getPath t q = some c) : ∃ d, getPath s q = some d ∧ VEquiv c d := by
  induction q generalizing t s with
  | nil =>
    simp only [getPath] at hc
    injection hc with hc
    subst hc
    exact ⟨s, rfl, h⟩
  | cons k0 q' ih =>
    simp only [getPath] at hc
    cases hg : keyGet t k0 with
    | none => rw [hg] at hc; cases hc
    | some c0 =>
      simp only [hg, Option.bind_eq_bind, Option.some_bind] at hc
      obtain ⟨d0, hd0, hcd0⟩ := keyGet_congr h hg
      obtain ⟨d, hd, hcd⟩ := ih hcd0 hc
      exact ⟨d, by simp only [getPath, hd0, Option.bind_eq_bind, Option.some_bind, hd], hcd⟩

theorem setPath_congr {t s a b x : PVal} {q : List Key} (h : VEquiv t s) (hab : VEquiv a b)
    (hx : setPath t q a = some x) : ∃ y, setPath s q b = some y ∧ VEquiv x y := by
  induction q generalizing t s x with
  | nil =>
    simp only [setPath] at hx
    injection hx with hx
    subst hx
    exact ⟨b, rfl, hab⟩
  | cons k0 q' ih =>
    simp only [setPath] at hx
    cases hg : keyGet t k0 with
    | none => rw [hg] at hx; cases hx
    | some c0 =>
      simp only [hg, Option.bind_eq_bind, Option.some_bind] at hx
      cases hs : setPath c0 q' a with
      | none => rw [hs] at hx; cases hx
      | some c0' =>
        simp only [hs, Option.bind_eq_bind, Option.some_bind] at hx
        obtain ⟨d0, hd0, hcd0⟩ := keyGet_congr h hg
        obtain ⟨d0', hd0', hcd0'⟩ := ih hcd0 hs
        obtain ⟨y, hy, hxy⟩ := keySet_congr h hcd0' hx
        exact ⟨y, by simp only [setPath, hd0, Option.bind_eq_bind, Option.some_bind, hd0', hy], hxy⟩

/-! ### Patch application: structure and congruence -/

theorem exists_last : ∀ (l : List Key), l ≠ [] → ∃ q k, l = q ++ [k] := by
  intro l
  induction l with
  | nil => intro h; exact absurd rfl h
  | cons a rest ih =>
    intro _
    cases rest with
    | nil => exact ⟨[], a, rfl⟩
    | cons b rest2 =>
      obtain ⟨q, k, hqk⟩ := ih (by simp)
      exact ⟨a :: q, k, by rw [List.cons_append, ← hqk]⟩

theorem applyCore_ne_nil {t : PVal} {p : Patch} (h : p.path ≠ []) :
    applyCore t p = walkAt t p.path (termF p.op p.value) := by
  cases hp : p.path with
  | nil => exact absurd hp h
  | cons a rest => simp [applyCore, hp]

theorem applyCore_split (t : PVal) (op : POp) (val : Option PVal) (q : List Key) (k : Key) :
    applyCore t ⟨op, q ++ [k], val⟩ =
      (getPath t q).bind fun c => (termF op val c k).bind fun c' => setPath t q c' := by
  rw [applyCore_ne_nil (by simp)]
  exact walkAt_split _ q k t

theorem applyCore_congr {t s x : PVal} {p : Patch} (h : VEquiv t s)
    (hx : applyCore t p = some x) : ∃ y, applyCore s p = some y ∧ VEquiv x y := by
  by_cases hp : p.path = []
  · obtain ⟨op, path, value⟩ := p
    simp only at hp
    subst hp
    cases op with
    | replace =>
      cases value with
      | some w =>
        simp [applyCore] at hx
        subst hx
        exact ⟨w, by simp [applyCore], vequiv_refl w⟩
      | none => simp [applyCore] at hx
    | add => simp [applyCore] at hx
    | remove => simp [applyCore] at hx
  · obtain ⟨q, k, hqk⟩ := exists_last p.path hp
    obtain ⟨op, path, value⟩ := p
    simp only at hqk
    subst hqk
    rw [applyCore_split] at hx ⊢
    cases hgp : getPath t q with
    | none => rw [hgp] at hx; cases hx
    | some c =>
      simp only [hgp, Option.bind_eq_bind, Option.some_bind] at hx
      cases htf : termF op value c k with
      | none => rw [htf] at hx; cases hx
      | some c' =>
        simp only [htf, Option.bind_eq_bind, Option.some_bind] at hx
        obtain ⟨d, hd, hcd⟩ := getPath_congr h hgp
        obtain ⟨d', hd', hcd'⟩ := termF_congr hcd htf
        obtain ⟨y, hy, hxy⟩ := setPath_congr h hcd' hx
        exact ⟨y, by simp only [hd, hd', hy, Option.bind_eq_bind, Option.some_bind], hxy⟩

/-! ### The per-write round-trip lemmas -/

theorem applyMut_destruct {t t' : PVal} {m : Mutation} {f b : Patch}
    (h : applyMut t m = some (t', f, b)) :
    recordMut t m = some (f, b) ∧ applyCore t f = some t' := by
  unfold applyMut at h
  cases hr : recordMut t m with
  | none => rw [hr] at h; cases h
  | some fb =>
    rw [hr] at h
    obtain ⟨f0, b0⟩ := fb
    simp only [Option.bind_eq_bind, Option.some_bind] at h
    cases hc : applyCore t f0 with
    | none => rw [hc] at h; cases h
    | some t0 =>
      rw [hc] at h
      simp only [Option.pure_def, Option.some.injEq, Prod.mk.injEq] at h
      obtain ⟨h1, h2, h3⟩ := h
      subst h1
      subst h2
      subst h3
      exact ⟨rfl, hc⟩

theorem term_inv_replace {c c₁ o v : PVal} {k : Key}
    (ho : keyGet c k = some o) (h : keySet c k v = some c₁) :
    keySet c₁ k o = some c := by
  rw [keySet_keySet h]
  exact keySet_self ho

theorem term_inv_add {c c₁ v : PVal} {k : Key}
    (ho : keyGet c k = none) (h : keyAdd c k v = some c₁) :
    keyRemove c₁ k = some c := by
  cases c with
  | prim s0 => simp [keyAdd] at h
  | obj l =>
    cases k with
    | fld q =>
      simp only [keyGet] at ho
      simp only [keyAdd, objAdd, ho, Option.isSome_none, Bool.false_eq_true, if_false] at h
      injection h with h
      subst h
      have hg : objGet (l ++ [(q, v)]) q = some v := by
        rw [objGet_append_none _ ho]
        simp [objGet]
      simp only [keyRemove, hg, Option.isSome_some, if_true]
      rw [objDel_append_single _ _ _ ho]
    | idx i => simp [keyAdd] at h
  | arr xs =>
    cases k with
    | fld q => simp [keyAdd] at h
    | idx i =>
      simp only [keyGet] at ho
      have hi : xs.length ≤ i := by
        by_contra hcon
        rw [List.getElem?_eq_getElem (by omega)] at ho
        cases ho
      by_cases hile : i ≤ xs.length
      · have hieq : i = xs.length := by omega
        subst hieq
        simp only [keyAdd, hile, if_true] at h
        injection h with h
        subst h
        rw [insertAt_length_self]
        have hlen : xs.length < (xs ++ [v]).length := by simp
        simp only [keyRemove, hlen, if_true]
        rw [removeAt_append_length]
      · simp [keyAdd, hile] at h

theorem term_inv_remove {c c₁ o : PVal} {k : Key}
    (ho : keyGet c k = some o) (h : keyRemove c k = some c₁) :
    ∃ c₂, keyAdd c₁ k o = some c₂ ∧ VEquiv c₂ c := by
  cases c with
  | prim s0 => simp [keyGet] at ho
  | obj l =>
    cases k with
    | fld q =>
      simp only [keyGet] at ho
      simp only [keyRemove, ho, Option.isSome_some, if_true] at h
      injection h with h
      subst h
      have hdel : objGet (objDel l q) q = none := by simp [objGet_objDel]
      refine ⟨.obj (objDel l q ++ [(q, o)]), ?_, ?_⟩
      · simp only [keyAdd, objAdd, hdel, Option.isSome_none, Bool.false_eq_true, if_false]
      · refine .obj _ _ (fun k' v w hv' hw' => ?_) (fun k' => ?_)
        · by_cases hk' : k' = q
          · subst hk'
            rw [objGet_append_none _ hdel] at hv'
            simp only [objGet, if_pos rfl] at hv'
            rw [ho] at hw'
            injection hv' with hv'
            injection hw' with hw'
            subst hv'
            subst hw'
            exact vequiv_refl o
          · cases hlv : objGet (objDel l q) k' with
            | none =>
              rw [objGet_append_none _ hlv] at hv'
              simp [objGet, (show ¬ q = k' from fun hcon => hk' hcon.symm)] at hv'
            | some v0 =>
              rw [objGet_append_some _ hlv] at hv'
              rw [objGet_objDel] at hlv
              rw [if_neg hk'] at hlv
              rw [hlv] at hw'
              injection hv' with hv'
              injection hw' with hw'
              subst hv'
              subst hw'
              exact vequiv_refl v0
        · by_cases hk' : k' = q
          · subst hk'
            rw [objGet_append_none _ hdel, ho]
            simp [objGet]
          · rw [objGet_append]
            rw [objGet_objDel, if_neg hk']
            cases hlv : objGet l k' with
            | none =>
              simp [objGet, hlv, (show ¬ q = k' from fun hcon => hk' hcon.symm)]
            | some v0 => rfl
    | idx i => simp [keyGet] at ho
  | arr xs =>
    cases k with
    | fld q => simp [keyGet] at ho
    | idx i =>
      simp only [keyGet] at ho
      have hi : i < xs.length := by
        by_contra hcon
        rw [List.getElem?_eq_none (by omega)] at ho
        cases ho
      simp only [keyRemove, hi, if_true] at h
      injection h with h
      subst h
      have hle : i ≤ (removeAt xs i).length := by
        rw [length_removeAt _ _ hi]
        omega
      refine ⟨.arr (insertAt (removeAt xs i) i o), by simp [keyAdd, hle], ?_⟩
      rw [insertAt_removeAt _ _ _ ho]
      exact vequiv_refl (.arr xs)

theorem spine_inv {t t' c c₁ c₂ : PVal} {q : List Key}
    (hgp : getPath t q = some c)
    (hsp : setPath t q c₁ = some t')
    (hc₂ : VEquiv c₂ c) :
    ∃ r, setPath t' q c₂ = some r ∧ VEquiv r t := by
  obtain ⟨r, hr⟩ := setPath_exists hgp c₂
  have hsp2 : setPath t' q c₂ = some r := by rw [setPath_setPath hsp]; exact hr
  obtain ⟨y, hy, hry⟩ := setPath_congr (vequiv_refl t) hc₂ hr
  rw [setPath_self hgp] at hy
  injection hy with hy
  subst hy
  exact ⟨r, hsp2, hry⟩

theorem applyMut_inv {t t' : PVal} {m : Mutation} {f b : Patch}
    (h : applyMut t m = some (t', f, b)) :
    ∃ r, applyCore t' b = some r ∧ VEquiv r t := by
  obtain ⟨hr, hc⟩ := applyMut_destruct h
  cases m with
  | mset q k v =>
    simp only [recordMut, Option.bind_eq_bind] at hr
    cases hgp : getPath t q with
    | none => rw [hgp] at hr; cases hr
    | some c =>
      simp only [hgp, Option.some_bind] at hr
      cases hkg : keyGet c k with
      | some o =>
        simp only [hkg, Option.pure_def, Option.some.injEq, Prod.mk.injEq] at hr
        obtain ⟨hf, hb⟩ := hr
        subst hf
        subst hb
        rw [applyCore_split, hgp] at hc
        simp only [Option.bind_eq_bind, Option.some_bind, termF] at hc
        cases hks : keySet c k v with
        | none => rw [hks] at hc; cases hc
        | some c₁ =>
          simp only [hks, Option.some_bind] at hc
          obtain ⟨r, hsp2, hrt⟩ := spine_inv hgp hc (vequiv_refl c)
          refine ⟨r, ?_, hrt⟩
          rw [applyCore_split, getPath_setPath hc]
          simp only [Option.bind_eq_bind, Option.some_bind, termF]
          rw [term_inv_replace hkg hks]
          simp only [Option.some_bind]
          exact hsp2
      | none =>
        simp only [hkg, Option.pure_def, Option.some.injEq, Prod.mk.injEq] at hr
        obtain ⟨hf, hb⟩ := hr
        subst hf
        subst hb
        rw [applyCore_split, hgp] at hc
        simp only [Option.bind_eq_bind, Option.some_bind, termF] at hc
        cases hka : keyAdd c k v with
        | none => rw [hka] at hc; cases hc
        | some c₁ =>
          simp only [hka, Option.some_bind] at hc
          obtain ⟨r, hsp2, hrt⟩ := spine_inv hgp hc (vequiv_refl c)
          refine ⟨r, ?_, hrt⟩
          rw [applyCore_split, getPath_setPath hc]
          simp only [Option.bind_eq_bind, Option.some_bind, termF]
          rw [term_inv_add hkg hka]
          simp only [Option.some_bind]
          exact hsp2
  | mdel q k =>
    simp only [recordMut, Option.bind_eq_bind] at hr
    cases hgp : getPath t q with
    | none => rw [hgp] at hr; cases hr
    | some c =>
      simp only [hgp, Option.some_bind] at hr
      cases hkg : keyGet c k with
      | none => rw [hkg] at hr; cases hr
      | some o =>
        simp only [hkg, Option.some_bind, Option.pure_def, Option.some.injEq,
          Prod.mk.injEq] at hr
        obtain ⟨hf, hb⟩ := hr
        subst hf
        subst hb
        rw [applyCore_split, hgp] at hc
        simp only [Option.bind_eq_bind, Option.some_bind, termF] at hc
        cases hkr : keyRemove c k with
        | none => rw [hkr] at hc; cases hc
        | some c₁ =>
          simp only [hkr, Option.some_bind] at hc
          obtain ⟨c₂, hka, hc₂⟩ := term_inv_remove hkg hkr
          obtain ⟨r, hsp2, hrt⟩ := spine_inv hgp hc hc₂
          refine ⟨r, ?_, hrt⟩
          rw [applyCore_split, getPath_setPath hc]
          simp only [Option.bind_eq_bind, Option.some_bind, termF]
          rw [hka]
          simp only [Option.some_bind]
          exact hsp2
  | mpush q v =>
    simp only [recordMut, Option.bind_eq_bind] at hr
    cases hgp : getPath t q with
    | none => rw [hgp] at hr; cases hr
    | some c =>
      simp only [hgp, Option.some_bind] at hr
      cases c with
      | prim s0 => cases hr
      | obj l => cases hr
      | arr xs =>
        simp only [Option.pure_def, Option.some.injEq, Prod.mk.injEq] at hr
        obtain ⟨hf, hb⟩ := hr
        subst hf
        subst hb
        rw [applyCore_split, hgp] at hc
        simp only [Option.bind_eq_bind, Option.some_bind, termF] at hc
        cases hka : keyAdd (.arr xs) (.idx xs.length) v with
        | none => rw [hka] at hc; cases hc
        | some c₁ =>
          simp only [hka, Option.some_bind] at hc
          have ho : keyGet (.arr xs) (.idx xs.length) = none := by
            simp [keyGet]
          obtain ⟨r, hsp2, hrt⟩ := spine_inv hgp hc (vequiv_refl (.arr xs))
          refine ⟨r, ?_, hrt⟩
          rw [applyCore_split, getPath_setPath hc]
          simp only [Option.bind_eq_bind, Option.some_bind, termF]
          rw [term_inv_add ho hka]
          simp only [Option.some_bind]
          exact hsp2

/-! ### Session-level round trip -/

theorem applyOp_of_core {t t' : PVal} {p : Patch} (h : applyCore t p = some t') :
    applyOp t p = .ok t' := by
  simp only [applyOp, h]

theorem applyPatches_append_ok {t v : PVal} {l₁ : List Patch} (l₂ : List Patch)
    (h : applyPatches t l₁ = .ok v) :
    applyPatches t (l₁ ++ l₂) = applyPatches v l₂ := by
  induction l₁ generalizing t with
  | nil =>
    simp only [applyPatches] at h
    injection h with h
    subst h
    rfl
  | cons p rest ih =>
    simp only [applyPatches] at h ⊢
    cases hop : applyOp t p with
    | ok t₁ =>
      rw [hop] at h
      simp only [List.cons_append, applyPatches, hop]
      exact ih h
    | error e => rw [hop] at h; cases h

theorem runMuts_fwd {t tn : PVal} {ms : List Mutation} {fs bs : List Patch}
    (h : runMuts t ms = some (tn, fs, bs)) : applyPatches t fs = .ok tn := by
  induction ms generalizing t fs bs with
  | nil =>
    simp only [runMuts, Option.some.injEq, Prod.mk.injEq] at h
    obtain ⟨h1, h2, h3⟩ := h
    subst h1
    subst h2
    subst h3
    rfl
  | cons m ms' ih =>
    simp only [runMuts, Option.bind_eq_bind] at h
    cases ham : applyMut t m with
    | none => rw [ham] at h; cases h
    | some x =>
      rw [ham] at h
      obtain ⟨t₁, f, b⟩ := x
      simp only [Option.some_bind] at h
      cases hrm : runMuts t₁ ms' with
      | none => rw [hrm] at h; cases h
      | some y =>
        rw [hrm] at h
        obtain ⟨t₂, fs', bs'⟩ := y
        simp at h
        obtain ⟨h1, h2, h3⟩ := h
        subst h1
        subst h2
        subst h3
        simp only [applyPatches, applyOp_of_core (applyMut_destruct ham).2]
        exact ih hrm

theorem runMuts_inv {t tn : PVal} {ms : List Mutation} {fs bs : List Patch}
    (h : runMuts t ms = some (tn, fs, bs)) :
    ∃ r, applyPatches tn bs.reverse = .ok r ∧ VEquiv r t := by
  induction ms generalizing t fs bs with
  | nil =>
    simp only [runMuts, Option.some.injEq, Prod.mk.injEq] at h
    obtain ⟨h1, h2, h3⟩ := h
    subst h1
    subst h2
    subst h3
    exact ⟨t, rfl, vequiv_refl t⟩
  | cons m ms' ih =>
    simp only [runMuts, Option.bind_eq_bind] at h
    cases ham : applyMut t m with
    | none => rw [ham] at h; cases h
    | some x =>
      rw [ham] at h
      obtain ⟨t₁, f, b⟩ := x
      simp only [Option.some_bind] at h
      cases hrm : runMuts t₁ ms' with
      | none => rw [hrm] at h; cases h
      | some y =>
        rw [hrm] at h
        obtain ⟨t₂, fs', bs'⟩ := y
        simp at h
        obtain ⟨h1, h2, h3⟩ := h
        subst h1
        subst h2
        subst h3
        obtain ⟨r₁, hr₁, hrt₁⟩ := ih hrm
        obtain ⟨s0, hs0, hst⟩ := applyMut_inv ham
        obtain ⟨y0, hy0, hsy0⟩ := applyCore_congr (vequiv_symm hrt₁) hs0
        rw [List.reverse_cons]
        rw [applyPatches_append_ok [b] hr₁]
        refine ⟨y0, ?_, vequiv_trans (vequiv_symm hsy0) hst⟩
        simp only [applyPatches, applyOp_of_core hy0]

theorem patch_roundtrip_core {B v : PVal} {E : EditFn} {fs bs : List Patch}
    (h : produceWithPatches B E = some (v, fs, bs)) :
    applyPatches B fs = .ok v ∧ ∃ r, applyPatches v bs.reverse = .ok r ∧ VEquiv r B := by
  unfold produceWithPatches at h
  cases hrm : runMuts B E.muts with
  | none => rw [hrm] at h; cases h
  | some x =>
    rw [hrm] at h
    obtain ⟨t', fs0, bs0⟩ := x
    simp only [Option.bind_eq_bind, Option.some_bind] at h
    cases hret : E.ret with
    | void =>
      rw [hret] at h
      simp at h
      obtain ⟨h1, h2, h3⟩ := h
      subst h1
      subst h2
      subst h3
      exact ⟨runMuts_fwd hrm, runMuts_inv hrm⟩
    | draftItself =>
      rw [hret] at h
      simp at h
      obtain ⟨h1, h2, h3⟩ := h
      subst h1
      subst h2
      subst h3
      exact ⟨runMuts_fwd hrm, runMuts_inv hrm⟩
    | replacement r =>
      rw [hret] at h
      simp at h
      obtain ⟨h1, h2, h3⟩ := h
      subst h1
      subst h2
      subst h3
      constructor
      · simp [applyPatches, applyOp, applyCore]
      · refine ⟨B, ?_, vequiv_refl B⟩
        simp [applyPatches, applyOp, applyCore]
    | nothing =>
      rw [hret] at h
      simp at h
      obtain ⟨h1, h2, h3⟩ := h
      subst h1
      subst h2
      subst h3
      constructor
      · simp [applyPatches, applyOp, applyCore]
      · refine ⟨B, ?_, vequiv_refl B⟩
        simp [applyPatches, applyOp, applyCore]

/-! ### Atomicity of the patch applier -/

theorem applyPatches_error_split :
    ∀ (ps : List Patch) (B : PVal) (e : AErr), applyPatches B ps = .error e →
      ∃ l p r v, ps = l ++ p :: r ∧ applyPatches B l = .ok v ∧ applyOp v p = .error e := by
  intro ps
  induction ps with
  | nil => intro B e h; cases h
  | cons p0 ps' ih =>
    intro B e h
    simp only [applyPatches] at h
    cases hop : applyOp B p0 with
    | error e0 =>
      rw [hop] at h
      injection h with h
      subst h
      exact ⟨[], p0, ps', B, rfl, rfl, hop⟩
    | ok t₁ =>
      rw [hop] at h
      obtain ⟨l', p, r, v, hsplit, hpre, hfail⟩ := ih t₁ e h
      refine ⟨p0 :: l', p, r, v, by rw [hsplit, List.cons_append], ?_, hfail⟩
      simp only [applyPatches, hop]
      exact hpre

theorem applyPatches_fail_of_bad_patch :
    ∀ (l : List Patch) (B v : PVal), applyPatches B l = .ok v →
      ∀ (p : Patch) (r : List Patch) (e : AErr), applyOp v p = .error e →
      applyPatches B (l ++ p :: r) = .error e := by
  intro l
  induction l with
  | nil =>
    intro B v h p r e hfail
    simp only [applyPatches] at h
    injection h with h
    subst h
    simp only [List.nil_append, applyPatches, hfail]
  | cons a l' ih =>
    intro B v h p r e hfail
    simp only [applyPatches] at h
    cases hop : applyOp B a with
    | error e0 => rw [hop] at h; cases h
    | ok t₁ =>
      rw [hop] at h
      simp only [List.cons_append, applyPatches, hop]
      exact ih t₁ v h p r e hfail


namespace Heap

theorem objGet_all {α : Type} {P : String × α → Bool} :
    ∀ {l : List (String × α)} {q : String} {v : α},
      l.all P = true → objGet l q = some v → ∃ k0, P (k0, v) = true := by
  intro l
  induction l with
  | nil => intro q v _ h; simp [objGet] at h
  | cons kv rest ih =>
    intro q v hall h
    obtain ⟨k0, v0⟩ := kv
    simp only [List.all_cons, Bool.and_eq_true] at hall
    by_cases hk : k0 = q
    · simp only [objGet, hk, if_pos rfl] at h
      injection h with h
      subst h
      exact ⟨k0, hall.1⟩
    · simp only [objGet, hk, if_false] at h
      exact ih hall.2 h

theorem getElem?_all {α : Type} {P : α → Bool} :
    ∀ {l : List α} {i : Nat} {v : α}, l.all P = true → l[i]? = some v → P v = true := by
  intro l
  induction l with
  | nil => intro i v _ h; simp at h
  | cons x rest ih =>
    intro i v hall h
    simp only [List.all_cons, Bool.and_eq_true] at hall
    cases i with
    | zero =>
      simp at h
      subst h
      exact hall.1
    | succ i =>
      simp at h
      exact ih hall.2 h

theorem valOK_mono {b b' : Nat} {v : HVal} (hle : b ≤ b') (h : valOK b v = true) :
    valOK b' v = true := by
  cases v with
  | ref i =>
    simp only [valOK, decide_eq_true_eq] at h ⊢
    omega
  | lit w => rfl

theorem nodeOK_mono {b b' : Nat} {n : Node} (hle : b ≤ b') (h : nodeOK b n = true) :
    nodeOK b' n = true := by
  cases n with
  | nobj l =>
    simp only [nodeOK, List.all_eq_true] at h ⊢
    exact fun kv hm => valOK_mono hle (h kv hm)
  | narr xs =>
    simp only [nodeOK, List.all_eq_true] at h ⊢
    exact fun x hm => valOK_mono hle (h x hm)

theorem storeOK_node {st : Store} {i : Nat} {n : Node} (hok : storeOK st = true)
    (h : st[i]? = some n) : nodeOK st.length n = true := by
  simp only [storeOK, List.all_eq_true] at hok
  have hm : n ∈ st := by
    have := List.getElem?_eq_some.mp h
    obtain ⟨hlt, heq⟩ := this
    exact heq ▸ List.getElem_mem hlt
  exact hok n hm

theorem nodeGet_OK {b : Nat} {n : Node} {k : Key} {c : HVal} (hok : nodeOK b n = true)
    (h : nodeGet n k = some c) : valOK b c = true := by
  cases n with
  | nobj l =>
    cases k with
    | fld q =>
      simp only [nodeGet] at h
      simp only [nodeOK] at hok
      obtain ⟨k0, hp⟩ := objGet_all hok h
      exact hp
    | idx i => simp [nodeGet] at h
  | narr xs =>
    cases k with
    | fld q => simp [nodeGet] at h
    | idx i =>
      simp only [nodeGet] at h
      simp only [nodeOK] at hok
      exact getElem?_all hok h

theorem storeOK_append_one {st : Store} {n : Node} (hok : storeOK st = true)
    (hn : nodeOK st.length n = true) : storeOK (st ++ [n]) = true := by
  simp only [storeOK, List.all_eq_true, List.mem_append, List.mem_singleton] at hok ⊢
  intro n0 hm
  have hlen : (st ++ [n]).length = st.length + 1 := by simp
  rw [hlen]
  cases hm with
  | inl hm => exact nodeOK_mono (by omega) (hok n0 hm)
  | inr hm => exact hm ▸ nodeOK_mono (by omega) hn

theorem getElem?_append_left_of_lt {α : Type} {l₁ l₂ : List α} {i : Nat} (h : i < l₁.length) :
    (l₁ ++ l₂)[i]? = l₁[i]? := by
  induction l₁ generalizing i with
  | nil => simp at h
  | cons x rest ih =>
    cases i with
    | zero => simp
    | succ i =>
      simp at h
      simp [ih h]

theorem getElem?_concat_self {α : Type} (l : List α) (x : α) :
    (l ++ [x])[l.length]? = some x := by
  induction l with
  | nil => rfl
  | cons y rest ih => simp [ih]

theorem resolve_lit (st : Store) : ∀ (p : List Key) (w : PVal),
    resolve st (.lit w) p = (getPath w p).map HVal.lit := by
  intro p
  induction p with
  | nil => intro w; rfl
  | cons k rest ih =>
    intro w
    simp only [resolve, getPath]
    cases hg : keyGet w k with
    | none => simp
    | some c => simp [ih c]

theorem resolve_ext {st : Store} (ext : Store) (hok : storeOK st = true) :
    ∀ (p : List Key) (v : HVal), valOK st.length v = true →
      resolve (st ++ ext) v p = resolve st v p := by
  intro p
  induction p with
  | nil => intro v _; cases v <;> rfl
  | cons k rest ih =>
    intro v hv
    cases v with
    | lit w =>
      simp only [resolve]
      cases hg : keyGet w k with
      | none => simp
      | some c => simp [ih (.lit c) rfl]
    | ref i =>
      have hi : i < st.length := by
        simp only [valOK, decide_eq_true_eq] at hv
        exact hv
      simp only [resolve, getElem?_append_left_of_lt hi]
      cases hn : st[i]? with
      | none => simp
      | some n =>
        simp only [Option.bind_eq_bind, Option.some_bind]
        cases hc : nodeGet n k with
        | none => simp
        | some c =>
          simp only [Option.some_bind]
          exact ih c (nodeGet_OK (storeOK_node hok hn) hc)

end Heap

theorem keySet_other {t t' w : PVal} {k k' : Key} (h : keySet t k w = some t')
    (hne : k' ≠ k) : keyGet t' k' = keyGet t k' := by
  cases t with
  | prim s0 => simp [keySet] at h
  | obj l =>
    cases k with
    | fld q =>
      by_cases hs : (objGet l q).isSome
      · simp only [keySet, hs, if_true] at h
        injection h with h
        subst h
        cases k' with
        | fld q' =>
          have hq' : q' ≠ q := fun hc => hne (by rw [hc])
          simp [keyGet, objGet_objSetFirst, hq']
        | idx i => rfl
      · simp [keySet, hs] at h
    | idx i => simp [keySet] at h
  | arr xs =>
    cases k with
    | fld q => simp [keySet] at h
    | idx i =>
      by_cases hi : i < xs.length
      · simp only [keySet, hi, if_true] at h
        injection h with h
        subst h
        cases k' with
        | fld q' => rfl
        | idx j =>
          have hj : j ≠ i := fun hc => hne (by rw [hc])
          simp [keyGet, getElem?_setAt, hj]
      · simp [keySet, hi] at h

namespace Heap

theorem nodeSet_nodeGet {n n' : Node} {k : Key} {c : HVal} (h : nodeSet n k c = some n') :
    nodeGet n' k = some c := by
  cases n with
  | nobj l =>
    cases k with
    | fld q =>
      by_cases hs : (objGet l q).isSome
      · simp only [nodeSet, hs, if_true] at h
        injection h with h
        subst h
        simp [nodeGet, objGet_objSetFirst, hs]
      · simp [nodeSet, hs] at h
    | idx i => simp [nodeSet] at h
  | narr xs =>
    cases k with
    | fld q => simp [nodeSet] at h
    | idx i =>
      by_cases hi : i < xs.length
      · simp only [nodeSet, hi, if_true] at h
        injection h with h
        subst h
        simp [nodeGet, getElem?_setAt, hi]
      · simp [nodeSet, hi] at h

theorem nodeSet_other {n n' : Node} {k k' : Key} {c : HVal} (h : nodeSet n k c = some n')
    (hne : k' ≠ k) : nodeGet n' k' = nodeGet n k' := by
  cases n with
  | nobj l =>
    cases k with
    | fld q =>
      by_cases hs : (objGet l q).isSome
      · simp only [nodeSet, hs, if_true] at h
        injection h with h
        subst h
        cases k' with
        | fld q' =>
          have hq' : q' ≠ q := fun hc => hne (by rw [hc])
          simp [nodeGet, objGet_objSetFirst, hq']
        | idx i => rfl
      · simp [nodeSet, hs] at h
    | idx i => simp [nodeSet] at h
  | narr xs =>
    cases k with
    | fld q => simp [nodeSet] at h
    | idx i =>
      by_cases hi : i < xs.length
      · simp only [nodeSet, hi, if_true] at h
        injection h with h
        subst h
        cases k' with
        | fld q' => rfl
        | idx j =>
          have hj : j ≠ i := fun hc => hne (by rw [hc])
          simp [nodeGet, getElem?_setAt, hj]
      · simp [nodeSet, hi] at h

theorem objSetFirst_all_snd {α : Type} {Q : α → Bool} :
    ∀ (l : List (String × α)) (q : String) (w : α),
      (l.all fun kv => Q kv.2) = true → Q w = true →
      ((objSetFirst l q w).all fun kv => Q kv.2) = true := by
  intro l
  induction l with
  | nil => intro q w _ _; rfl
  | cons kv rest ih =>
    intro q w hall hw
    obtain ⟨k0, v0⟩ := kv
    simp only [List.all_cons, Bool.and_eq_true] at hall
    by_cases hk0 : k0 = q
    · subst hk0
      simp [objSetFirst, hw, hall.2]
    · simp only [objSetFirst, hk0, if_false, List.all_cons, Bool.and_eq_true]
      exact ⟨hall.1, ih q w hall.2 hw⟩

theorem setAt_all {α : Type} {Q : α → Bool} :
    ∀ (l : List α) (i : Nat) (w : α), l.all Q = true → Q w = true →
      (setAt l i w).all Q = true := by
  intro l
  induction l with
  | nil => intro i w _ _; rfl
  | cons x rest ih =>
    intro i w hall hw
    simp only [List.all_cons, Bool.and_eq_true] at hall
    cases i with
    | zero =>
      simp only [setAt, List.all_cons, Bool.and_eq_true]
      exact ⟨hw, hall.2⟩
    | succ i =>
      simp only [setAt, List.all_cons, Bool.and_eq_true]
      exact ⟨hall.1, ih i w hall.2 hw⟩

theorem objDel_all_snd {α : Type} {Q : α → Bool} :
    ∀ (l : List (String × α)) (q : String),
      (l.all fun kv => Q kv.2) = true → ((objDel l q).all fun kv => Q kv.2) = true := by
  intro l
  induction l with
  | nil => intro q _; rfl
  | cons kv rest ih =>
    intro q hall
    obtain ⟨k0, v0⟩ := kv
    simp only [List.all_cons, Bool.and_eq_true] at hall
    by_cases hk0 : k0 = q
    · simp only [objDel, hk0, if_pos rfl]
      exact ih q hall.2
    · simp only [objDel, hk0, if_false, List.all_cons, Bool.and_eq_true]
      exact ⟨hall.1, ih q hall.2⟩

theorem removeAt_all {α : Type} {Q : α → Bool} :
    ∀ (l : List α) (i : Nat), l.all Q = true → (removeAt l i).all Q = true := by
  intro l
  induction l with
  | nil => intro i _; rfl
  | cons x rest ih =>
    intro i hall
    simp only [List.all_cons, Bool.and_eq_true] at hall
    cases i with
    | zero => exact hall.2
    | succ i =>
      simp only [removeAt, List.all_cons, Bool.and_eq_true]
      exact ⟨hall.1, ih i hall.2⟩

theorem nodeSet_OK {b : Nat} {n n' : Node} {k : Key} {c : HVal} (hn : nodeOK b n = true)
    (hc : valOK b c = true) (h : nodeSet n k c = some n') : nodeOK b n' = true := by
  cases n with
  | nobj l =>
    cases k with
    | fld q =>
      by_cases hs : (objGet l q).isSome
      · simp only [nodeSet, hs, if_true] at h
        injection h with h
        subst h
        simp only [nodeOK] at hn ⊢
        exact objSetFirst_all_snd l q c hn hc
      · simp [nodeSet, hs] at h
    | idx i => simp [nodeSet] at h
  | narr xs =>
    cases k with
    | fld q => simp [nodeSet] at h
    | idx i =>
      by_cases hi : i < xs.length
      · simp only [nodeSet, hi, if_true] at h
        injection h with h
        subst h
        simp only [nodeOK] at hn ⊢
        exact setAt_all xs i c hn hc
      · simp [nodeSet, hi] at h

end Heap

namespace Heap

theorem writeS_ext {fN : Node → Option Node} {fP : PVal → Option PVal} :
    ∀ (path : List Key) (st : Store) (v : HVal) (st' : Store) (v' : HVal),
      writeS st v path fN fP = some (st', v') → ∃ ext, st' = st ++ ext := by
  intro path
  induction path with
  | nil =>
    intro st v st' v' h
    cases v with
    | lit w =>
      simp only [writeS] at h
      cases he : editAtP w [] fP with
      | none => rw [he] at h; cases h
      | some w' =>
        rw [he] at h
        simp at h
        exact ⟨[], by rw [← h.1]; simp⟩
    | ref i =>
      simp only [writeS] at h
      cases hn : st[i]? with
      | none => rw [hn] at h; cases h
      | some n =>
        rw [hn] at h
        simp only [Option.bind_eq_bind, Option.some_bind] at h
        cases hf : fN n with
        | none => rw [hf] at h; cases h
        | some n' =>
          rw [hf] at h
          simp at h
          exact ⟨[n'], h.1.symm⟩
  | cons k0 rest ih =>
    intro st v st' v' h
    cases v with
    | lit w =>
      simp only [writeS] at h
      cases he : editAtP w (k0 :: rest) fP with
      | none => rw [he] at h; cases h
      | some w' =>
        rw [he] at h
        simp at h
        exact ⟨[], by rw [← h.1]; simp⟩
    | ref i =>
      simp only [writeS] at h
      cases hn : st[i]? with
      | none => rw [hn] at h; cases h
      | some n =>
        rw [hn] at h
        simp only [Option.bind_eq_bind, Option.some_bind] at h
        cases hc : nodeGet n k0 with
        | none => rw [hc] at h; cases h
        | some c =>
          rw [hc] at h
          simp only [Option.some_bind] at h
          cases hw : writeS st c rest fN fP with
          | none => rw [hw] at h; cases h
          | some x =>
            rw [hw] at h
            obtain ⟨st₀, c'⟩ := x
            simp only [Option.some_bind] at h
            cases hns : nodeSet n k0 c' with
            | none => rw [hns] at h; cases h
            | some n' =>
              rw [hns] at h
              simp at h
              obtain ⟨ext₀, hext⟩ := ih st c st₀ c' hw
              exact ⟨ext₀ ++ [n'], by rw [← h.1, hext, List.append_assoc]⟩

theorem writeS_closed {fN : Node → Option Node} {fP : PVal → Option PVal}
    (Hc : ∀ n n' b, nodeOK b n = true → fN n = some n' → nodeOK b n' = true) :
    ∀ (path : List Key) (st : Store) (v : HVal) (st' : Store) (v' : HVal),
      storeOK st = true → valOK st.length v = true →
      writeS st v path fN fP = some (st', v') →
      storeOK st' = true ∧ valOK st'.length v' = true := by
  intro path
  induction path with
  | nil =>
    intro st v st' v' hok hv h
    cases v with
    | lit w =>
      simp only [writeS] at h
      cases he : editAtP w [] fP with
      | none => rw [he] at h; cases h
      | some w' =>
        rw [he] at h
        simp at h
        rw [← h.1, ← h.2]
        exact ⟨hok, rfl⟩
    | ref i =>
      simp only [writeS] at h
      cases hn : st[i]? with
      | none => rw [hn] at h; cases h
      | some n =>
        rw [hn] at h
        simp only [Option.bind_eq_bind, Option.some_bind] at h
        cases hf : fN n with
        | none => rw [hf] at h; cases h
        | some n' =>
          rw [hf] at h
          simp at h
          rw [← h.1, ← h.2]
          have hok' : nodeOK st.length n' = true := Hc n n' st.length (storeOK_node hok hn) hf
          refine ⟨storeOK_append_one hok hok', ?_⟩
          simp [valOK]
  | cons k0 rest ih =>
    intro st v st' v' hok hv h
    cases v with
    | lit w =>
      simp only [writeS] at h
      cases he : editAtP w (k0 :: rest) fP with
      | none => rw [he] at h; cases h
      | some w' =>
        rw [he] at h
        simp at h
        rw [← h.1, ← h.2]
        exact ⟨hok, rfl⟩
    | ref i =>
      simp only [writeS] at h
      cases hn : st[i]? with
      | none => rw [hn] at h; cases h
      | some n =>
        rw [hn] at h
        simp only [Option.bind_eq_bind, Option.some_bind] at h
        cases hc : nodeGet n k0 with
        | none => rw [hc] at h; cases h
        | some c =>
          rw [hc] at h
          simp only [Option.some_bind] at h
          cases hw : writeS st c rest fN fP with
          | none => rw [hw] at h; cases h
          | some x =>
            rw [hw] at h
            obtain ⟨st₀, c'⟩ := x
            simp only [Option.some_bind] at h
            cases hns : nodeSet n k0 c' with
            | none => rw [hns] at h; cases h
            | some n' =>
              rw [hns] at h
              simp at h
              rw [← h.1, ← h.2]
              have hn0 : nodeOK st.length n = true := storeOK_node hok hn
              have hc0 : valOK st.length c = true := nodeGet_OK hn0 hc
              obtain ⟨hok₀, hc'⟩ := ih st c st₀ c' hok hc0 hw
              obtain ⟨ext₀, hext⟩ := writeS_ext rest st c st₀ c' hw
              have hle : st.length ≤ st₀.length := by rw [hext]; simp
              have hn' : nodeOK st₀.length n' = true :=
                nodeSet_OK (nodeOK_mono hle hn0) hc' hns
              refine ⟨storeOK_append_one hok₀ hn', ?_⟩
              simp [valOK]

theorem editAtP_frame {fP : PVal → Option PVal} {PK : Key → Bool}
    (HfP : ∀ w w' k c, fP w = some w' → PK k = true → keyGet w k = some c →
      keyGet w' k = some c) :
    ∀ (path : List Key) (w w' : PVal) (p : List Key),
      editAtP w path fP = some w' → disjB path PK p = true →
      (getPath w p).isSome = true → getPath w' p = getPath w p := by
  intro path
  induction path with
  | nil =>
    intro w w' p h hd hres
    cases p with
    | nil => simp [disjB] at hd
    | cons k p' =>
      simp only [disjB] at hd
      simp only [getPath] at hres ⊢
      cases hg : keyGet w k with
      | none => rw [hg] at hres; simp at hres
      | some c =>
        rw [HfP w w' k c h hd hg]
  | cons k0 rest ih =>
    intro w w' p h hd hres
    simp only [editAtP] at h
    cases hg : keyGet w k0 with
    | none => rw [hg] at h; cases h
    | some c =>
      rw [hg] at h
      simp only [Option.bind_eq_bind, Option.some_bind] at h
      cases he : editAtP c rest fP with
      | none => rw [he] at h; cases h
      | some c' =>
        rw [he] at h
        simp only [Option.some_bind] at h
        cases p with
        | nil => simp [disjB] at hd
        | cons b p' =>
          simp only [disjB] at hd
          by_cases hb : k0 = b
          · subst hb
            simp at hd
            simp only [getPath, keySet_keyGet h, hg, Option.bind_eq_bind, Option.some_bind]
            simp only [getPath, hg, Option.bind_eq_bind, Option.some_bind] at hres
            rw [ih c c' p' he hd hres]
          · have hbne : b ≠ k0 := fun hc => hb hc.symm
            simp only [getPath, keySet_other h hbne]

theorem writeS_frame {fN : Node → Option Node} {fP : PVal → Option PVal} {PK : Key → Bool}
    (Hc : ∀ n n' b, nodeOK b n = true → fN n = some n' → nodeOK b n' = true)
    (HfN : ∀ n n' k c, fN n = some n' → PK k = true → nodeGet n k = some c →
      nodeGet n' k = some c)
    (HfP : ∀ w w' k c, fP w = some w' → PK k = true → keyGet w k = some c →
      keyGet w' k = some c) :
    ∀ (path : List Key) (st : Store) (v : HVal) (st' : Store) (v' : HVal) (p : List Key),
      storeOK st = true → valOK st.length v = true →
      writeS st v path fN fP = some (st', v') →
      disjB path PK p = true → (resolve st v p).isSome = true →
      resolve st' v' p = resolve st v p := by
  intro path
  induction path with
  | nil =>
    intro st v st' v' p hok hv h hd hres
    cases v with
    | lit w =>
      simp only [writeS] at h
      cases he : editAtP w [] fP with
      | none => rw [he] at h; cases h
      | some w' =>
        rw [he] at h
        simp at h
        rw [← h.1, ← h.2]
        rw [resolve_lit, resolve_lit]
        rw [resolve_lit] at hres
        have hres' : (getPath w p).isSome = true := by
          cases hgp : getPath w p with
          | none => rw [hgp] at hres; simp at hres
          | some z => rfl
        rw [editAtP_frame HfP [] w w' p he hd hres']
    | ref i =>
      simp only [writeS] at h
      cases hn : st[i]? with
      | none => rw [hn] at h; cases h
      | some n =>
        rw [hn] at h
        simp only [Option.bind_eq_bind, Option.some_bind] at h
        cases hf : fN n with
        | none => rw [hf] at h; cases h
        | some n' =>
          rw [hf] at h
          simp at h
          rw [← h.1, ← h.2]
          cases p with
          | nil => simp [disjB] at hd
          | cons k p' =>
            simp only [disjB] at hd
            simp only [resolve, hn, Option.bind_eq_bind, Option.some_bind] at hres ⊢
            cases hc : nodeGet n k with
            | none => rw [hc] at hres; simp at hres
            | some c =>
              rw [hc] at hres
              simp only [Option.some_bind] at hres
              simp only [hc, Option.some_bind]
              simp only [resolve, getElem?_concat_self, Option.bind_eq_bind, Option.some_bind]
              rw [HfN n n' k c hf hd hc]
              simp only [Option.some_bind]
              exact resolve_ext [n'] hok p' c (nodeGet_OK (storeOK_node hok hn) hc)
  | cons k0 rest ih =>
    intro st v st' v' p hok hv h hd hres
    cases v with
    | lit w =>
      simp only [writeS] at h
      cases he : editAtP w (k0 :: rest) fP with
      | none => rw [he] at h; cases h
      | some w' =>
        rw [he] at h
        simp at h
        rw [← h.1, ← h.2]
        rw [resolve_lit, resolve_lit]
        rw [resolve_lit] at hres
        have hres' : (getPath w p).isSome = true := by
          cases hgp : getPath w p with
          | none => rw [hgp] at hres; simp at hres
          | some z => rfl
        rw [editAtP_frame HfP (k0 :: rest) w w' p he hd hres']
    | ref i =>
      simp only [writeS] at h
      cases hn : st[i]? with
      | none => rw [hn] at h; cases h
      | some n =>
        rw [hn] at h
        simp only [Option.bind_eq_bind, Option.some_bind] at h
        cases hc : nodeGet n k0 with
        | none => rw [hc] at h; cases h
        | some c =>
          rw [hc] at h
          simp only [Option.some_bind] at h
          cases hw : writeS st c rest fN fP with
          | none => rw [hw] at h; cases h
          | some x =>
            rw [hw] at h
            obtain ⟨st₀, c'⟩ := x
            simp only [Option.some_bind] at h
            cases hns : nodeSet n k0 c' with
            | none => rw [hns] at h; cases h
            | some n' =>
              rw [hns] at h
              simp at h
              rw [← h.1, ← h.2]
              have hn0 : nodeOK st.length n = true := storeOK_node hok hn
              have hc0 : valOK st.length c = true := nodeGet_OK hn0 hc
              obtain ⟨hok₀, hc'⟩ := writeS_closed Hc rest st c st₀ c' hok hc0 hw
              obtain ⟨ext₀, hext⟩ := writeS_ext rest st c st₀ c' hw
              cases p with
              | nil => simp [disjB] at hd
              | cons b p' =>
                simp only [disjB] at hd
                simp only [resolve, hn, Option.bind_eq_bind, Option.some_bind] at hres ⊢
                by_cases hb : k0 = b
                · subst hb
                  simp at hd
                  rw [hc] at hres
                  simp only [Option.some_bind] at hres
                  simp only [hc, Option.some_bind]
                  simp only [resolve, getElem?_concat_self, Option.bind_eq_bind,
                    Option.some_bind]
                  rw [nodeSet_nodeGet hns]
                  simp only [Option.some_bind]
                  have hstep : resolve st₀ c' p' = resolve st c p' :=
                    ih st c st₀ c' p' hok hc0 hw hd hres
                  calc resolve (st₀ ++ [n']) c' p'
                      = resolve st₀ c' p' := resolve_ext [n'] hok₀ p' c' hc'
                    _ = resolve st c p' := hstep
                · have hbne : b ≠ k0 := fun hcon => hb hcon.symm
                  cases hcb : nodeGet n b with
                  | none => rw [hcb] at hres; simp at hres
                  | some cb =>
                    rw [hcb] at hres
                    simp only [Option.some_bind] at hres
                    simp only [hcb, Option.some_bind]
                    simp only [resolve, getElem?_concat_self, Option.bind_eq_bind,
                      Option.some_bind]
                    rw [nodeSet_other hns hbne, hcb]
                    simp only [Option.some_bind]
                    have hcbOK : valOK st.length cb = true := nodeGet_OK hn0 hcb
                    calc resolve (st₀ ++ [n']) cb p'
                        = resolve (st ++ (ext₀ ++ [n'])) cb p' := by
                          rw [hext, List.append_assoc]
                      _ = resolve st cb p' := resolve_ext (ext₀ ++ [n']) hok p' cb hcbOK

theorem mut_Hc (m : Mutation) : ∀ n n' b, nodeOK b n = true → mutTermN m n = some n' →
    nodeOK b n' = true := by
  intro n n' b hn h
  cases m with
  | mset q k w =>
    simp only [mutTermN] at h
    cases hg : nodeGet n k with
    | some c =>
      rw [hg] at h
      exact nodeSet_OK hn (by rfl) h
    | none =>
      rw [hg] at h
      cases n with
      | nobj l =>
        cases k with
        | fld q0 =>
          injection h with h
          subst h
          simp only [nodeOK, List.all_append] at hn ⊢
          rw [Bool.and_eq_true]
          exact ⟨hn, rfl⟩
        | idx i => cases h
      | narr xs =>
        cases k with
        | fld q0 => cases h
        | idx i =>
          by_cases hi : i = xs.length
          · simp only [hi, if_pos rfl] at h
            injection h with h
            subst h
            simp only [nodeOK, List.all_append] at hn ⊢
            simp [hn, valOK]
          · simp [hi] at h
  | mdel q k =>
    simp only [mutTermN] at h
    cases n with
    | nobj l =>
      cases k with
      | fld q0 =>
        by_cases hs : (objGet l q0).isSome
        · simp only [hs, if_true] at h
          injection h with h
          subst h
          simp only [nodeOK] at hn ⊢
          exact objDel_all_snd l q0 hn
        · simp [hs] at h
      | idx i => cases h
    | narr xs =>
      cases k with
      | fld q0 => cases h
      | idx i =>
        by_cases hi : i < xs.length
        · simp only [hi, if_true] at h
          injection h with h
          subst h
          simp only [nodeOK] at hn ⊢
          exact removeAt_all xs i hn
        · simp [hi] at h
  | mpush q w =>
    simp only [mutTermN] at h
    cases n with
    | nobj l => cases h
    | narr xs =>
      injection h with h
      subst h
      simp only [nodeOK, List.all_append] at hn ⊢
      rw [Bool.and_eq_true]
      exact ⟨hn, rfl⟩

theorem mut_HfN (m : Mutation) : ∀ n n' k c, mutTermN m n = some n' → keepKey m k = true →
    nodeGet n k = some c → nodeGet n' k = some c := by
  intro n n' k c h hkeep hg
  cases m with
  | mset q k0 w =>
    simp only [keepKey] at hkeep
    have hne : k ≠ k0 := by simpa using hkeep
    simp only [mutTermN] at h
    cases hg0 : nodeGet n k0 with
    | some c0 =>
      rw [hg0] at h
      rw [nodeSet_other h hne]
      exact hg
    | none =>
      rw [hg0] at h
      cases n with
      | nobj l =>
        cases k0 with
        | fld q0 =>
          injection h with h
          subst h
          cases k with
          | fld q1 =>
            simp only [nodeGet] at hg ⊢
            exact objGet_append_some _ hg
          | idx i => simp [nodeGet] at hg
        | idx i => cases h
      | narr xs =>
        cases k0 with
        | fld q0 => cases h
        | idx i =>
          by_cases hi : i = xs.length
          · simp only [hi, if_pos rfl] at h
            injection h with h
            subst h
            cases k with
            | fld q1 => simp [nodeGet] at hg
            | idx j =>
              simp only [nodeGet] at hg ⊢
              have hj : j < xs.length := by
                by_contra hcon
                rw [List.getElem?_eq_none (by omega)] at hg
                cases hg
              rw [getElem?_append_left_of_lt hj]
              exact hg
          · simp [hi] at h
  | mdel q k0 =>
    simp only [mutTermN] at h
    cases k0 with
    | fld f0 =>
      simp only [keepKey] at hkeep
      have hne : k ≠ Key.fld f0 := by simpa using hkeep
      cases n with
      | nobj l =>
        by_cases hs : (objGet l f0).isSome
        · simp only [hs, if_true] at h
          injection h with h
          subst h
          cases k with
          | fld q1 =>
            have hq1 : q1 ≠ f0 := fun hc => hne (by rw [hc])
            simp only [nodeGet] at hg ⊢
            rw [objGet_objDel, if_neg hq1]
            exact hg
          | idx i => simp [nodeGet] at hg
        · simp [hs] at h
      | narr xs => cases h
    | idx i =>
      cases n with
      | nobj l => cases h
      | narr xs =>
        by_cases hi : i < xs.length
        · simp only [hi, if_true] at h
          injection h with h
          subst h
          cases k with
          | fld q1 => simp [nodeGet] at hg
          | idx j =>
            simp only [keepKey, decide_eq_true_eq] at hkeep
            simp only [nodeGet] at hg ⊢
            rw [getElem?_removeAt, if_pos hkeep]
            exact hg
        · simp [hi] at h
  | mpush q w =>
    simp only [mutTermN] at h
    cases n with
    | nobj l => cases h
    | narr xs =>
      injection h with h
      subst h
      cases k with
      | fld q1 => simp [nodeGet] at hg
      | idx j =>
        simp only [nodeGet] at hg ⊢
        have hj : j < xs.length := by
          by_contra hcon
          rw [List.getElem?_eq_none (by omega)] at hg
          cases hg
        rw [getElem?_append_left_of_lt hj]
        exact hg

theorem mut_HfP (m : Mutation) : ∀ w w' k c, mutTerm m w = some w' → keepKey m k = true →
    keyGet w k = some c → keyGet w' k = some c := by
  intro w w' k c h hkeep hg
  cases m with
  | mset q k0 x =>
    simp only [keepKey] at hkeep
    have hne : k ≠ k0 := by simpa using hkeep
    simp only [mutTerm] at h
    cases hg0 : keyGet w k0 with
    | some c0 =>
      rw [hg0] at h
      rw [keySet_other h hne]
      exact hg
    | none =>
      rw [hg0] at h
      cases w with
      | prim s0 => simp [keyAdd] at h
      | obj l =>
        cases k0 with
        | fld q0 =>
          simp only [keyGet] at hg0
          simp only [keyAdd, objAdd, hg0, Option.isSome_none, Bool.false_eq_true,
            if_false] at h
          injection h with h
          subst h
          cases k with
          | fld q1 =>
            simp only [keyGet] at hg ⊢
            exact objGet_append_some _ hg
          | idx i => simp [keyGet] at hg
        | idx i => simp [keyAdd] at h
      | arr xs =>
        cases k0 with
        | fld q0 => simp [keyAdd] at h
        | idx i =>
          simp only [keyGet] at hg0
          have hilen : xs.length ≤ i := by
            by_contra hcon
            rw [List.getElem?_eq_getElem (by omega)] at hg0
            cases hg0
          by_cases hile : i ≤ xs.length
          · have hieq : i = xs.length := by omega
            subst hieq
            simp only [keyAdd, hile, if_true] at h
            injection h with h
            subst h
            rw [insertAt_length_self]
            cases k with
            | fld q1 => simp [keyGet] at hg
            | idx j =>
              simp only [keyGet] at hg ⊢
              have hj : j < xs.length := by
                by_contra hcon
                rw [List.getElem?_eq_none (by omega)] at hg
                cases hg
              rw [getElem?_append_left_of_lt hj]
              exact hg
          · simp [keyAdd, hile] at h
  | mdel q k0 =>
    simp only [mutTerm] at h
    cases k0 with
    | fld f0 =>
      simp only [keepKey] at hkeep
      have hne : k ≠ Key.fld f0 := by simpa using hkeep
      cases w with
      | prim s0 => simp [keyRemove] at h
      | obj l =>
        by_cases hs : (objGet l f0).isSome
        · simp only [keyRemove, hs, if_true] at h
          injection h with h
          subst h
          cases k with
          | fld q1 =>
            have hq1 : q1 ≠ f0 := fun hc => hne (by rw [hc])
            simp only [keyGet] at hg ⊢
            rw [objGet_objDel, if_neg hq1]
            exact hg
          | idx i => simp [keyGet] at hg
        · simp [keyRemove, hs] at h
      | arr xs => simp [keyRemove] at h
    | idx i =>
      cases w with
      | prim s0 => simp [keyRemove] at h
      | obj l => simp [keyRemove] at h
      | arr xs =>
        by_cases hi : i < xs.length
        · simp only [keyRemove, hi, if_true] at h
          injection h with h
          subst h
          cases k with
          | fld q1 => simp [keyGet] at hg
          | idx j =>
            simp only [keepKey, decide_eq_true_eq] at hkeep
            simp only [keyGet] at hg ⊢
            rw [getElem?_removeAt, if_pos hkeep]
            exact hg
        · simp [keyRemove, hi] at h
  | mpush q x =>
    simp only [mutTerm] at h
    cases w with
    | prim s0 => cases h
    | obj l => cases h
    | arr xs =>
      injection h with h
      subst h
      cases k with
      | fld q1 => simp [keyGet] at hg
      | idx j =>
        simp only [keyGet] at hg ⊢
        have hj : j < xs.length := by
          by_contra hcon
          rw [List.getElem?_eq_none (by omega)] at hg
          cases hg
        rw [getElem?_append_left_of_lt hj]
        exact hg

end Heap


namespace Heap

theorem disj_aux_key (PK : Key → Bool) (k : Key) (hPK : ∀ b, b ≠ k → PK b = true) :
    ∀ (q p : List Key), isPre p q = false → isPre (q ++ [k]) p = false →
      disjB q PK p = true := by
  intro q
  induction q with
  | nil =>
    intro p h1 h2
    cases p with
    | nil => simp [isPre] at h1
    | cons b p' =>
      simp only [List.nil_append, isPre, Bool.and_eq_false_iff] at h2
      simp only [disjB]
      rcases h2 with h2 | h2
      · simp only [decide_eq_false_iff_not] at h2
        exact hPK b (fun hc => h2 hc.symm)
      · simp [isPre] at h2
  | cons a q' ih =>
    intro p h1 h2
    cases p with
    | nil => simp [isPre] at h1
    | cons b p' =>
      simp only [disjB]
      by_cases hab : a = b
      · subst hab
        simp only [isPre, decide_eq_true_eq, if_pos rfl] at h1
        simp at h1
        simp only [List.cons_append, isPre] at h2
        simp at h2
        rw [ih p' h1 h2]
        simp
      · simp [hab]

theorem disj_aux_idx (PK : Key → Bool) (i : Nat)
    (hPKf : ∀ s, PK (Key.fld s) = true) (hPKj : ∀ j, j < i → PK (Key.idx j) = true) :
    ∀ (q p : List Key), isPre p q = false →
      (isPre q p &&
        match p.drop q.length with
        | Key.idx j :: _ => decide (i ≤ j)
        | _ => false) = false →
      disjB q PK p = true := by
  intro q
  induction q with
  | nil =>
    intro p h1 h2
    cases p with
    | nil => simp [isPre] at h1
    | cons b p' =>
      simp only [isPre, Bool.true_and, List.drop_zero] at h2
      simp only [disjB]
      cases b with
      | fld s => exact hPKf s
      | idx j =>
        refine hPKj j ?_
        by_contra hcon
        have hij : i ≤ j := by omega
        simp [hij] at h2
  | cons a q' ih =>
    intro p h1 h2
    cases p with
    | nil => simp [isPre] at h1
    | cons b p' =>
      simp only [disjB]
      by_cases hab : a = b
      · subst hab
        simp only [isPre, decide_eq_true_eq, if_pos rfl] at h1
        simp at h1
        simp only [isPre, List.length_cons, List.drop_succ_cons] at h2
        rw [show (decide True) = true from rfl, Bool.true_and] at h2
        rw [ih p' h1 h2]
        simp
      · simp [hab]

theorem disj_aux_all (PK : Key → Bool) (hPK : ∀ b, PK b = true) :
    ∀ (q p : List Key), isPre p q = false → disjB q PK p = true := by
  intro q
  induction q with
  | nil =>
    intro p h1
    cases p with
    | nil => simp [isPre] at h1
    | cons b p' =>
      simp only [disjB]
      exact hPK b
  | cons a q' ih =>
    intro p h1
    cases p with
    | nil => simp [isPre] at h1
    | cons b p' =>
      simp only [disjB]
      by_cases hab : a = b
      · subst hab
        simp only [isPre, decide_eq_true_eq, if_pos rfl] at h1
        simp at h1
        rw [ih p' h1]
        simp
      · simp [hab]

theorem not_touches_disj (m : Mutation) (p : List Key) (h : mTouches m p = false) :
    disjB (mpath m) (keepKey m) p = true := by
  cases m with
  | mset q k w =>
    simp only [mTouches, Bool.or_eq_false_iff] at h
    refine disj_aux_key (keepKey (.mset q k w)) k ?_ q p h.1 h.2
    intro b hb
    simp [keepKey, hb]
  | mdel q k =>
    cases k with
    | fld f0 =>
      simp only [mTouches, Bool.or_eq_false_iff] at h
      refine disj_aux_key (keepKey (.mdel q (.fld f0))) (.fld f0) ?_ q p h.1 h.2
      intro b hb
      simp [keepKey, hb]
    | idx i =>
      simp only [mTouches, Bool.or_eq_false_iff] at h
      refine disj_aux_idx (keepKey (.mdel q (.idx i))) i ?_ ?_ q p h.1 h.2
      · intro s; rfl
      · intro j hj
        simp [keepKey, hj]
  | mpush q w =>
    simp only [mTouches] at h
    refine disj_aux_all (keepKey (.mpush q w)) ?_ q p h
    intro b
    rfl

end Heap

namespace Heap

theorem applyMutS_good {st st' : Store} {v v' : HVal} {m : Mutation}
    (hok : storeOK st = true) (hv : valOK st.length v = true)
    (h : applyMutS st v m = some (st', v')) :
    (∃ ext, st' = st ++ ext) ∧ storeOK st' = true ∧ valOK st'.length v' = true ∧
    ∀ p, mTouches m p = false → (resolve st v p).isSome = true →
      resolve st' v' p = resolve st v p := by
  unfold applyMutS at h
  obtain ⟨hok', hv'⟩ := writeS_closed (mut_Hc m) (mpath m) st v st' v' hok hv h
  refine ⟨writeS_ext (mpath m) st v st' v' h, hok', hv', fun p hp hres => ?_⟩
  exact writeS_frame (mut_Hc m) (mut_HfN m) (mut_HfP m) (mpath m) st v st' v' p hok hv h
    (not_touches_disj m p hp) hres

theorem runMutsS_good : ∀ (ms : List Mutation) (st : Store) (v : HVal) (st' : Store) (v' : HVal),
    storeOK st = true → valOK st.length v = true →
    runMutsS st v ms = some (st', v') →
    (∃ ext, st' = st ++ ext) ∧ storeOK st' = true ∧ valOK st'.length v' = true ∧
    ∀ p, (∀ m ∈ ms, mTouches m p = false) → (resolve st v p).isSome = true →
      resolve st' v' p = resolve st v p := by
  intro ms
  induction ms with
  | nil =>
    intro st v st' v' hok hv h
    simp only [runMutsS, Option.some.injEq, Prod.mk.injEq] at h
    obtain ⟨h1, h2⟩ := h
    subst h1
    subst h2
    exact ⟨⟨[], by simp⟩, hok, hv, fun p _ _ => rfl⟩
  | cons m ms' ih =>
    intro st v st' v' hok hv h
    simp only [runMutsS, Option.bind_eq_bind] at h
    cases ham : applyMutS st v m with
    | none => rw [ham] at h; cases h
    | some x =>
      rw [ham] at h
      obtain ⟨st₁, v₁⟩ := x
      simp only [Option.some_bind] at h
      obtain ⟨⟨ext₁, hext₁⟩, hok₁, hv₁, hframe₁⟩ := applyMutS_good hok hv ham
      obtain ⟨⟨ext₂, hext₂⟩, hok₂, hv₂, hframe₂⟩ := ih st₁ v₁ st' v' hok₁ hv₁ h
      refine ⟨⟨ext₁ ++ ext₂, by rw [hext₂, hext₁, List.append_assoc]⟩, hok₂, hv₂,
        fun p hall hres => ?_⟩
      have hm1 : mTouches m p = false := hall m (List.mem_cons_self _ _)
      have hstep₁ : resolve st₁ v₁ p = resolve st v p := hframe₁ p hm1 hres
      have hres₁ : (resolve st₁ v₁ p).isSome = true := by rw [hstep₁]; exact hres
      have hstep₂ : resolve st' v' p = resolve st₁ v₁ p :=
        hframe₂ p (fun m2 hm2 => hall m2 (List.mem_cons_of_mem _ hm2)) hres₁
      rw [hstep₂, hstep₁]

theorem produce_store {st st' : Store} {B v : HVal} {E : EditFn}
    (h : produce st B E = some (st', v)) : ∃ v₀, runMutsS st B E.muts = some (st', v₀) := by
  unfold produce at h
  cases hr : runMutsS st B E.muts with
  | none => rw [hr] at h; cases h
  | some x =>
    rw [hr] at h
    obtain ⟨st₀, v₀⟩ := x
    simp only [Option.bind_eq_bind, Option.some_bind] at h
    cases hret : E.ret with
    | void =>
      rw [hret] at h
      simp at h
      obtain ⟨h1, h2⟩ := h
      subst h1
      exact ⟨v₀, rfl⟩
    | draftItself =>
      rw [hret] at h
      simp at h
      obtain ⟨h1, h2⟩ := h
      subst h1
      exact ⟨v₀, rfl⟩
    | replacement r =>
      rw [hret] at h
      simp at h
      obtain ⟨h1, h2⟩ := h
      subst h1
      exact ⟨v₀, rfl⟩
    | nothing =>
      rw [hret] at h
      simp at h
      obtain ⟨h1, h2⟩ := h
      subst h1
      exact ⟨v₀, rfl⟩

end Heap

namespace Heap

theorem runMutsS_ext : ∀ (ms : List Mutation) (st : Store) (v : HVal) (st' : Store) (v' : HVal),
    runMutsS st v ms = some (st', v') → ∃ ext, st' = st ++ ext := by
  intro ms
  induction ms with
  | nil =>
    intro st v st' v' h
    simp only [runMutsS, Option.some.injEq, Prod.mk.injEq] at h
    exact ⟨[], by rw [← h.1]; simp⟩
  | cons m ms' ih =>
    intro st v st' v' h
    simp only [runMutsS, Option.bind_eq_bind] at h
    cases ham : applyMutS st v m with
    | none => rw [ham] at h; cases h
    | some x =>
      rw [ham] at h
      obtain ⟨st₁, v₁⟩ := x
      simp only [Option.some_bind] at h
      obtain ⟨ext₁, hext₁⟩ := writeS_ext (mpath m) st v st₁ v₁ ham
      obtain ⟨ext₂, hext₂⟩ := ih st₁ v₁ st' v' h
      exact ⟨ext₁ ++ ext₂, by rw [hext₂, hext₁, List.append_assoc]⟩

theorem produce_normal {st st' : Store} {B v : HVal} {E : EditFn}
    (hret : E.ret = .void ∨ E.ret = .draftItself)
    (h : produce st B E = some (st', v)) : runMutsS st B E.muts = some (st', v) := by
  unfold produce at h
  cases hr : runMutsS st B E.muts with
  | none => rw [hr] at h; cases h
  | some x =>
    rw [hr] at h
    obtain ⟨st₀, v₀⟩ := x
    simp only [Option.bind_eq_bind, Option.some_bind] at h
    cases hret with
    | inl h2 =>
      rw [h2] at h
      simp at h
      obtain ⟨h3, h4⟩ := h
      subst h3
      subst h4
      rfl
    | inr h2 =>
      rw [h2] at h
      simp at h
      obtain ⟨h3, h4⟩ := h
      subst h3
      subst h4
      rfl

end Heap

/-! ## The claims -/

/-- C1: for every base value B and every edit function E that performs no
draft write (including E returning nothing/undefined, or the draft itself),
`produce` returns the original base reference B itself in an unchanged store —
reference identity, not a copy: no allocation takes place. -/
theorem claim_produce_identity_noop {st : Heap.Store} {B : Heap.HVal} {E : EditFn}
    (h1 : E.muts = []) (h2 : E.ret = .void ∨ E.ret = .draftItself) :
    Heap.produce st B E = some (st, B) := by
  cases h2 with
  | inl h =>
    unfold Heap.produce
    rw [h1, h]
    rfl
  | inr h =>
    unfold Heap.produce
    rw [h1, h]
    rfl

theorem claim_produce_identity_noop_witness :
    Heap.produce [Heap.Node.nobj [("a", Heap.HVal.lit (.prim (.num 1)))]]
      (Heap.HVal.ref 0) ⟨[], .void⟩ =
      some ([Heap.Node.nobj [("a", Heap.HVal.lit (.prim (.num 1)))]], Heap.HVal.ref 0) :=
  claim_produce_identity_noop rfl (Or.inl rfl)

/-- C2: for every base value B and every edit function E, `produce` leaves the
contents of B unchanged: the store is only ever extended (every pre-existing
node cell is intact afterwards), so no operation mutates a base value,
whatever writes E performs on the draft. -/
theorem claim_produce_never_mutates_base {st st' : Heap.Store} {B v : Heap.HVal} {E : EditFn}
    (h : Heap.produce st B E = some (st', v)) :
    (∃ ext, st' = st ++ ext) ∧ ∀ i, i < st.length → st'[i]? = st[i]? := by
  obtain ⟨v₀, hr⟩ := Heap.produce_store h
  obtain ⟨ext, hext⟩ := Heap.runMutsS_ext E.muts st B st' v₀ hr
  refine ⟨⟨ext, hext⟩, fun i hi => ?_⟩
  rw [hext]
  exact Heap.getElem?_append_left_of_lt hi

theorem claim_produce_never_mutates_base_witness :
    (∃ ext, [Heap.Node.nobj [("a", Heap.HVal.lit (.prim (.num 1)))],
        Heap.Node.nobj [("a", Heap.HVal.lit (.prim (.num 2)))]] =
      [Heap.Node.nobj [("a", Heap.HVal.lit (.prim (.num 1)))]] ++ ext)
    ∧ ∀ i, i < [Heap.Node.nobj [("a", Heap.HVal.lit (.prim (.num 1)))]].length →
      [Heap.Node.nobj [("a", Heap.HVal.lit (.prim (.num 1)))],
        Heap.Node.nobj [("a", Heap.HVal.lit (.prim (.num 2)))]][i]? =
      [Heap.Node.nobj [("a", Heap.HVal.lit (.prim (.num 1)))]][i]? :=
  @claim_produce_never_mutates_base
    [Heap.Node.nobj [("a", Heap.HVal.lit (.prim (.num 1)))]]
    [Heap.Node.nobj [("a", Heap.HVal.lit (.prim (.num 1)))],
      Heap.Node.nobj [("a", Heap.HVal.lit (.prim (.num 2)))]]
    (Heap.HVal.ref 0) (Heap.HVal.ref 1)
    ⟨[.mset [] (.fld "a") (.prim (.num 2))], .void⟩ rfl

/-- C5: for every base value B and mutation-session edit function E (one that
returns nothing/undefined or the draft itself — replacement and sentinel
returns bypass the draft, §4.3), every subtree of B that no write of E
touches resolves, in the produced store, to the very same reference as in the
base: only the path from the root to each written child is freshly
allocated. -/
theorem claim_structural_sharing {st st' : Heap.Store} {B v : Heap.HVal} {E : EditFn}
    {p : List Key}
    (hok : Heap.storeOK st = true) (hB : Heap.valOK st.length B = true)
    (hret : E.ret = .void ∨ E.ret = .draftItself)
    (h : Heap.produce st B E = some (st', v))
    (hun : Heap.untouched E p = true)
    (hres : (Heap.resolve st B p).isSome = true) :
    Heap.resolve st' v p = Heap.resolve st B p := by
  have hr := Heap.produce_normal hret h
  refine (Heap.runMutsS_good E.muts st B st' v hok hB hr).2.2.2 p (fun m hm => ?_) hres
  simp only [Heap.untouched, List.all_eq_true] at hun
  have := hun m hm
  simp only [Bool.not_eq_true'] at this
  exact this

theorem claim_structural_sharing_witness :
    Heap.resolve
      [Heap.Node.nobj [("x", Heap.HVal.lit (.prim (.num 5)))],
       Heap.Node.nobj [("a", Heap.HVal.lit (.prim (.num 1))), ("b", Heap.HVal.ref 0)],
       Heap.Node.nobj [("a", Heap.HVal.lit (.prim (.num 9))), ("b", Heap.HVal.ref 0)]]
      (Heap.HVal.ref 2) [Key.fld "b"] =
    Heap.resolve
      [Heap.Node.nobj [("x", Heap.HVal.lit (.prim (.num 5)))],
       Heap.Node.nobj [("a", Heap.HVal.lit (.prim (.num 1))), ("b", Heap.HVal.ref 0)]]
      (Heap.HVal.ref 1) [Key.fld "b"] :=
  @claim_structural_sharing
    [Heap.Node.nobj [("x", Heap.HVal.lit (.prim (.num 5)))],
      Heap.Node.nobj [("a", Heap.HVal.lit (.prim (.num 1))), ("b", Heap.HVal.ref 0)]]
    [Heap.Node.nobj [("x", Heap.HVal.lit (.prim (.num 5)))],
      Heap.Node.nobj [("a", Heap.HVal.lit (.prim (.num 1))), ("b", Heap.HVal.ref 0)],
      Heap.Node.nobj [("a", Heap.HVal.lit (.prim (.num 9))), ("b", Heap.HVal.ref 0)]]
    (Heap.HVal.ref 1) (Heap.HVal.ref 2)
    ⟨[.mset [] (.fld "a") (.prim (.num 9))], .void⟩
    [Key.fld "b"]
    rfl rfl (Or.inl rfl) rfl rfl rfl

/-- C3: for every base value B and every forward/inverse patch pair recorded
by one edit session, replaying the forward patches against B yields the
session's result, and then replaying the inverse patches in reverse order
yields a value content-equal to B; the recorder emits the inverse patches in
forward index order and does not reverse them itself — the caller applies
them reversed to undo the session. -/
theorem claim_patch_roundtrip {B v : PVal} {E : EditFn} {fs bs : List Patch}
    (h : produceWithPatches B E = some (v, fs, bs)) :
    applyPatches B fs = .ok v ∧ ∃ r, applyPatches v bs.reverse = .ok r ∧ VEquiv r B :=
  patch_roundtrip_core h

theorem claim_patch_roundtrip_witness :
    applyPatches (.obj [("a", .prim (.num 1)), ("b", .prim (.num 2))])
        [⟨.remove, [.fld "a"], none⟩] = .ok (.obj [("b", .prim (.num 2))])
    ∧ ∃ r, applyPatches (.obj [("b", .prim (.num 2))])
        ([⟨.add, [.fld "a"], some (.prim (.num 1))⟩] : List Patch).reverse = .ok r
        ∧ VEquiv r (.obj [("a", .prim (.num 1)), ("b", .prim (.num 2))]) :=
  @claim_patch_roundtrip (.obj [("a", .prim (.num 1)), ("b", .prim (.num 2))])
    (.obj [("b", .prim (.num 2))]) ⟨[.mdel [] (.fld "a")], .void⟩
    [⟨.remove, [.fld "a"], none⟩] [⟨.add, [.fld "a"], some (.prim (.num 1))⟩] rfl

/-- C4: patches recorded against one base replay against a different but
structurally compatible base.  Recording the edit that sets `age` to 33 on
`{name:"A", age:32}` yields a single replace patch at path `["age"]`, and
applying that patch to the differently-sourced `{name:"B", age:32}` gives
`{name:"B", age:33}` — only the patched path changes, the other field of the
new base is kept. -/
theorem claim_patch_replay_other_base :
    produceWithPatches (.obj [("name", .prim (.str "A")), ("age", .prim (.num 32))])
        ⟨[.mset [] (.fld "age") (.prim (.num 33))], .void⟩ =
      some (.obj [("name", .prim (.str "A")), ("age", .prim (.num 33))],
        [⟨.replace, [.fld "age"], some (.prim (.num 33))⟩],
        [⟨.replace, [.fld "age"], some (.prim (.num 32))⟩])
    ∧ applyPatches (.obj [("name", .prim (.str "B")), ("age", .prim (.num 32))])
        [⟨.replace, [.fld "age"], some (.prim (.num 33))⟩] =
      .ok (.obj [("name", .prim (.str "B")), ("age", .prim (.num 33))]) :=
  ⟨rfl, rfl⟩

/-- C6: appending the value 4 to the sequence `[1,2,3]` during a
patch-recording session records exactly one forward patch — an `add` at index
3 with value 4, not a full-array replace — and the matching inverse patch, a
`remove` at index 3. -/
theorem claim_append_patch_shape :
    produceWithPatches (.arr [.prim (.num 1), .prim (.num 2), .prim (.num 3)])
        ⟨[.mpush [] (.prim (.num 4))], .void⟩ =
      some (.arr [.prim (.num 1), .prim (.num 2), .prim (.num 3), .prim (.num 4)],
        [⟨.add, [.idx 3], some (.prim (.num 4))⟩],
        [⟨.remove, [.idx 3], none⟩]) :=
  rfl

/-- C7 (amended): for every base value B, an edit function returning the erase
sentinel (`nothing`) makes `produce` return the designated absent value
(undefined); whenever B is not itself the absent value, this result differs
from B (and hence from the no-change result).  As stated for all B the
original claim fails: when B is the absent value itself, the result equals
B. -/
theorem claim_nothing_sentinel {B : PVal} {E : EditFn} (hret : E.ret = .nothing)
    (hok : ∃ x, runMuts B E.muts = some x) :
    produce B E = some (.prim .undef) ∧ (B ≠ .prim .undef → produce B E ≠ some B) := by
  obtain ⟨⟨t', fs, bs⟩, hx⟩ := hok
  have hp : produce B E = some (.prim .undef) := by
    simp [produce, produceWithPatches, hx, hret]
  refine ⟨hp, fun hB hcon => ?_⟩
  rw [hp] at hcon
  injection hcon with hcon
  exact hB hcon.symm

theorem claim_nothing_sentinel_witness :
    produce (.obj [("hello", .prim (.str "world"))]) ⟨[], .nothing⟩ = some (.prim .undef)
    ∧ ((PVal.obj [("hello", .prim (.str "world"))]) ≠ .prim .undef →
        produce (.obj [("hello", .prim (.str "world"))]) ⟨[], .nothing⟩ ≠
          some (.obj [("hello", .prim (.str "world"))])) :=
  @claim_nothing_sentinel (.obj [("hello", .prim (.str "world"))]) ⟨[], .nothing⟩ rfl
    ⟨(.obj [("hello", .prim (.str "world"))], [], []), rfl⟩

/-- C7 counterexample: the claim as stated quantifies over every base value
and asserts the sentinel result is distinct from B; at the base value
`undefined` the sentinel result equals the base (and equals the no-change
result), so the distinctness clause fails. -/
theorem claim_nothing_sentinel_cex :
    produce (.prim .undef) ⟨[], .nothing⟩ = some (.prim .undef) := rfl

/-- C8: if the edit function returns a value other than the draft or the
sentinel, `produce` returns that replacement value as the whole result; any
draft writes performed before returning are discarded and the call does not
fail — even when the edit function both wrote to the draft and returned a
replacement. -/
theorem claim_replacement_return {B r : PVal} {E : EditFn}
    (hret : E.ret = .replacement r) (hok : ∃ x, runMuts B E.muts = some x) :
    produce B E = some r := by
  obtain ⟨⟨t', fs, bs⟩, hx⟩ := hok
  simp [produce, produceWithPatches, hx, hret]

theorem claim_replacement_return_witness :
    produce (.obj [("userCount", .prim (.num 1))])
      ⟨[.mset [] (.fld "userCount") (.prim (.num 2))],
        .replacement (.obj [("fresh", .prim (.num 7))])⟩ =
      some (.obj [("fresh", .prim (.num 7))]) :=
  @claim_replacement_return (.obj [("userCount", .prim (.num 1))])
    (.obj [("fresh", .prim (.num 7))])
    ⟨[.mset [] (.fld "userCount") (.prim (.num 2))],
      .replacement (.obj [("fresh", .prim (.num 7))])⟩
    rfl
    ⟨(.obj [("userCount", .prim (.num 2))],
      [⟨.replace, [.fld "userCount"], some (.prim (.num 2))⟩],
      [⟨.replace, [.fld "userCount"], some (.prim (.num 1))⟩]), rfl⟩

/-- C9: `applyPatches` is atomic per patch set.  Every failure is a
PathNotFound error arising from a patch whose path fails to resolve against
the value current at its application time, and conversely one failing patch
anywhere in the set poisons the whole application — no prefix of effects
escapes, the caller keeps the original base; otherwise all patches apply in
sequence order. -/
theorem claim_applyPatches_atomic (B : PVal) (ps : List Patch) :
    (∀ e, applyPatches B ps = .error e →
      e = .pathNotFound ∧
        ∃ l p r v, ps = l ++ p :: r ∧ applyPatches B l = .ok v ∧ applyOp v p = .error e)
    ∧ (∀ l p r v e, ps = l ++ p :: r → applyPatches B l = .ok v → applyOp v p = .error e →
      applyPatches B ps = .error e) := by
  constructor
  · intro e h
    exact ⟨by cases e; rfl, applyPatches_error_split ps B e h⟩
  · intro l p r v e hsplit hpre hfail
    subst hsplit
    exact applyPatches_fail_of_bad_patch l B v hpre p r e hfail

theorem claim_applyPatches_atomic_witness :
    applyPatches (.obj [("a", .prim (.num 1))])
      [⟨.replace, [.fld "a"], some (.prim (.num 2))⟩,
       ⟨.replace, [.fld "b"], some (.prim (.num 3))⟩,
       ⟨.replace, [.fld "a"], some (.prim (.num 4))⟩] = .error .pathNotFound :=
  (claim_applyPatches_atomic (.obj [("a", .prim (.num 1))])
      [⟨.replace, [.fld "a"], some (.prim (.num 2))⟩,
       ⟨.replace, [.fld "b"], some (.prim (.num 3))⟩,
       ⟨.replace, [.fld "a"], some (.prim (.num 4))⟩]).2
    [⟨.replace, [.fld "a"], some (.prim (.num 2))⟩]
    ⟨.replace, [.fld "b"], some (.prim (.num 3))⟩
    [⟨.replace, [.fld "a"], some (.prim (.num 4))⟩]
    (.obj [("a", .prim (.num 2))]) .pathNotFound rfl rfl rfl

/-- C10: `produce` accepts a third argument, a patch listener, absent from the
spec's public signatures: for every base B and edit function E the
three-argument call returns the same value as `produce(B, E)` and invokes the
listener exactly once, after the edit session, with the session's forward
patch set and inverse patch set as its two arguments. -/
theorem claim_patch_listener {α : Type} (B : PVal) (E : EditFn)
    (L : List Patch → List Patch → α) {v : PVal} {ps ips : List Patch}
    (h : produceWithPatches B E = some (v, ps, ips)) :
    produceListen B E L = some (v, [L ps ips]) ∧ produce B E = some v := by
  constructor
  · simp [produceListen, h]
  · simp [produce, h]

theorem claim_patch_listener_witness :
    produceListen (.obj [("age", .prim (.num 32))])
        ⟨[.mset [] (.fld "age") (.prim (.num 33))], .void⟩
        (fun ps ips => (ps.length, ips.length)) =
      some (.obj [("age", .prim (.num 33))], [(1, 1)])
    ∧ produce (.obj [("age", .prim (.num 32))])
        ⟨[.mset [] (.fld "age") (.prim (.num 33))], .void⟩ =
      some (.obj [("age", .prim (.num 33))]) :=
  @claim_patch_listener (Nat × Nat) (.obj [("age", .prim (.num 32))])
    ⟨[.mset [] (.fld "age") (.prim (.num 33))], .void⟩
    (fun ps ips => (ps.length, ips.length))
    (.obj [("age", .prim (.num 33))])
    [⟨.replace, [.fld "age"], some (.prim (.num 33))⟩]
    [⟨.replace, [.fld "age"], some (.prim (.num 32))⟩] rfl
